import Mathlib

/-! Verification of parseprof.go, which builds a call-frequency tree from profiler stack
traces.

A shallow embedding of `src/parseprof.go` and the properties of its pipeline
(scan, sort, linearize, render).

Modelling decisions:

* Go pointers `*CallGraphNode` are addresses (`Ptr`) into an explicit heap, a list of
  nodes in allocation order. Every function that mutates nodes through pointers takes
  the heap and returns the new heap.
* A Go `map[string]*CallGraphNode` is an association list with unique keys. The order in
  which `range` visits a map is not specified by the language; it is supplied by the
  `Runtime` parameter, separately for every map object.
* `sort.Slice` is a library routine that is not stable; it is a field of `Runtime`
  together with its documented contract.
* `[]interface{}` elements are values of the closed type `Link`.
* `Count` is a Go `int`. It is bounded by the number of input lines, which stays far
  below `2^63`, so it is modelled by `Int` without wrap-around.
* A run-time panic and an exhausted recursion budget are values of `Err`.
* The input is UTF-8 text, and a name is a `String`. What the program writes out is a
  sequence of bytes (`Bytes`): `formatName` slices the bytes of the name.
* The `bufio.Writer` is the pair of the bytes the output file has received and the bytes
  that wait in its buffer of 4096 bytes; `WriteString` follows the Go standard library,
  and the file accepts every write. The source never flushes the writer, so the bytes
  that are in the buffer when the program ends do not reach the file.
-/

namespace ParseProf

/-- Address of a `CallGraphNode` in the heap. -/
abbrev Ptr := Nat

/-- One element of `Links []interface{}`: a `*CallGraphNode` or a `string`. -/
inductive Link where
  | node (p : Ptr)
  | str (s : String)
deriving DecidableEq, Repr

/-- Go `map[string]*CallGraphNode` (`MapTitleToGraphNode`): unique keys, in insertion order. -/
abbrev GoMap := List (String × Ptr)

/-- The struct `CallGraphNode`. -/
structure CallGraphNode where
  Count : Int
  Name : String
  Links : List Link
  Map : GoMap
  Visited : Bool
deriving DecidableEq, Repr

/-- All allocated nodes; `h[p]?` dereferences the pointer `p`. -/
abbrev Heap := List CallGraphNode

/-- The struct `Results` (`TopLevelLinks` is never read or written by the program). -/
structure Results where
  MapNameToNode : GoMap
  TopLevelNode : GoMap
deriving DecidableEq, Repr

/-- Ways in which the modelled code stops without a result. -/
inductive Err where
  | fuel
  | nilDeref
  | sliceBounds
  | typeAssert
deriving DecidableEq, Repr

deriving instance DecidableEq for Except

/-- Map assignment `m[k] = v`: overwrite the value of an existing key, else add the key. -/
def GoMap.store : GoMap → String → Ptr → GoMap
  | [], k, v => [(k, v)]
  | (k', v') :: m, k, v => if k' = k then (k, v) :: m else (k', v') :: GoMap.store m k v

/-- Identity of a map object, to tell the `range` loops of the program apart. -/
inductive MapId where
  | registry
  | roots
  | assoc (p : Ptr)
deriving DecidableEq, Repr

/-- The contract on the `less` argument of `sort.Slice`: a strict weak ordering. -/
structure StrictWeak (less : Link → Link → Bool) : Prop where
  irrefl : ∀ a, less a a = false
  trans : ∀ a b c, less a b = true → less b c = true → less a c = true
  incomp : ∀ a b c, less a b = false → less b a = false → less b c = false →
    less c b = false → less a c = false ∧ less c a = false

/-- What the Go runtime and library leave open: the order of `range` over each map and
the (unstable) `sort.Slice`, each with its contract. -/
structure Runtime where
  rangeMap : MapId → GoMap → GoMap
  rangeMap_perm : ∀ i m, (rangeMap i m).Perm m
  sortSlice : (Link → Link → Bool) → List Link → List Link
  sortSlice_perm : ∀ less l, (sortSlice less l).Perm l
  sortSlice_sorted : ∀ less l, StrictWeak less →
    (sortSlice less l).Pairwise (fun a b => less b a = false)

/-! ## Scanner: `onScanLine`, `scanLines` -/

/-- The guard of `onScanLine`: `line == "" || line[0] != '#'`. The byte `line[0]` is `#`
exactly when the first character is `#`. -/
def isSeparator (line : String) : Bool :=
  line == "" || line.data.head? != some '#'

/-- Lines 187-192 of `onScanLine`: look the line up in `res.MapNameToNode`; allocate a node
with `Count` 1 when absent, else add 1 to its `Count`. Returns the node's pointer. -/
def observe (h : Heap) (res : Results) (line : String) : Heap × Results × Ptr :=
  match res.MapNameToNode.lookup line with
  | none =>
    (h ++ [{ Count := 1, Name := line, Links := [], Map := [], Visited := false }],
     { res with MapNameToNode := res.MapNameToNode.store line h.length }, h.length)
  | some entry =>
    match h[entry]? with
    | some e => (h.set entry { e with Count := e.Count + 1 }, res, entry)
    | none => (h, res, entry)

/-- Lines 194-199 of `onScanLine`: when `prevLineEntry` is not nil and its name is not yet a
key of `entry.Map`, store it there. -/
def link (h : Heap) (entry : Ptr) (prevLineEntry : Option Ptr) : Heap :=
  match prevLineEntry with
  | none => h
  | some prev =>
    match h[prev]?, h[entry]? with
    | some pe, some e =>
      match e.Map.lookup pe.Name with
      | none => h.set entry { e with Map := e.Map.store pe.Name prev }
      | some _ => h
    | _, _ => h

/-- The function `onScanLine(res, line, prevLineEntry)`: the new heap, the new `res` and the returned
pointer (`none` is `nil`). -/
def onScanLine (h : Heap) (res : Results) (line : String) (prevLineEntry : Option Ptr) :
    Heap × Results × Option Ptr :=
  if isSeparator line then (h, res, none)
  else
    let r := observe h res line
    (link r.1 r.2.2 prevLineEntry, r.2.1, some r.2.2)

/-- The loop variables of `scanLines`. -/
structure Scan where
  heap : Heap
  res : Results
  prevLineEntry : Option Ptr
deriving DecidableEq, Repr

/-- One iteration of the `for scanner.Scan()` loop of `scanLines`. -/
def scanStep (s : Scan) (line : String) : Scan :=
  let r := onScanLine s.heap s.res line s.prevLineEntry
  let res1 :=
    match r.2.2, s.prevLineEntry with
    | none, some prev =>
      match r.1[prev]? with
      | some pe => { r.2.1 with TopLevelNode := r.2.1.TopLevelNode.store pe.Name prev }
      | none => r.2.1
    | _, _ => r.2.1
  { heap := r.1, res := res1, prevLineEntry := r.2.2 }

/-- The state `main` starts from: empty maps, no node allocated, `prevLineEntry` nil. -/
def initScan : Scan :=
  { heap := [], res := { MapNameToNode := [], TopLevelNode := [] }, prevLineEntry := none }

/-- The function `scanLines` on the lines delivered by the scanner, from the initial state of `main`. -/
def scanLines (lines : List String) : Scan :=
  lines.foldl scanStep initScan

/-- Strip one trailing carriage return (`dropCR` of `bufio.ScanLines`). -/
def dropCR (l : List Char) : List Char :=
  if l.getLast? = some '\r' then l.dropLast else l

/-- Tokens of `bufio.ScanLines`: `acc` is the current line, reversed. -/
def splitLinesAux : List Char → List Char → List String
  | [], acc => if acc = [] then [] else [String.mk (dropCR acc.reverse)]
  | c :: rest, acc =>
    if c = '\n' then String.mk (dropCR acc.reverse) :: splitLinesAux rest []
    else splitLinesAux rest (c :: acc)

/-- The lines a `bufio.Scanner` with the default split function delivers for a text
(lines below the scanner's token limit). -/
def textLines (text : String) : List String :=
  splitLinesAux text.data []

/-- In the input `lines`, a line equal to `a` is immediately followed by a line equal
to `b`. -/
def Adjacent (lines : List String) (a b : String) : Prop :=
  ∃ i, lines[i]? = some a ∧ lines[i + 1]? = some b

/-! ## Frequency sorter: `mapToList`, `sortVec`, `sortByFrequences` -/

/-- The function `mapToList(mapobj)`: the values of the map in the order `range` visits them. -/
def mapToList (order : GoMap → GoMap) (mapobj : GoMap) : List Link :=
  (order mapobj).map (fun kv => Link.node kv.2)

/-- The `Count` read by the comparison of `sortVec`: `entry, _ := v.(*CallGraphNode)`
followed by `entry.Count`; `none` is the nil dereference for a string element. -/
def linkCount (h : Heap) : Link → Option Int
  | Link.node p => (h[p]?).map (fun e => e.Count)
  | Link.str _ => none

/-- The comparison closure of `sortVec`: `entry_i.Count > entry_j.Count`. -/
def sortLess (h : Heap) (a b : Link) : Bool :=
  decide ((linkCount h a).getD 0 > (linkCount h b).getD 0)

/-- The function `sortVec(links)`. With fewer than two elements `sort.Slice` compares nothing; otherwise
every element is compared at least once, so a string element panics. -/
def sortVec (R : Runtime) (h : Heap) (links : List Link) : Except Err (List Link) :=
  if links.length < 2 then Except.ok links
  else if links.all (fun l => (linkCount h l).isSome) then
    Except.ok (R.sortSlice (sortLess h) links)
  else Except.error Err.nilDeref

/-- The body of the loop of `sortByFrequences`, for the registry entries still to visit. -/
def sortEntries (R : Runtime) : List (String × Ptr) → Heap → Except Err Heap
  | [], h => Except.ok h
  | kv :: rest, h =>
    match h[kv.2]? with
    | none => Except.error Err.nilDeref
    | some e =>
      match sortVec R h (mapToList (R.rangeMap (MapId.assoc kv.2)) e.Map) with
      | Except.error err => Except.error err
      | Except.ok links => sortEntries R rest (h.set kv.2 { e with Links := links })

/-- The function `sortByFrequences(res)`: its loop over `res.MapNameToNode`. -/
def sortByFrequences (R : Runtime) (h : Heap) (res : Results) : Except Err Heap :=
  sortEntries R (R.rangeMap MapId.registry res.MapNameToNode) h

/-! ## Linearizer: `walkEntry` -/

/-- One iteration of `for idx, sentry := range entry.Links` in `walkEntry`; `walk` is the
recursive call. -/
def walkStep (walk : Heap → Ptr → Except Err Heap) (entry : Ptr) (h : Heap) (idx : Nat) :
    Except Err Heap :=
  match h[entry]? with
  | none => Except.error Err.nilDeref
  | some e =>
    match e.Links[idx]? with
    | some (Link.node c) =>
      match h[c]? with
      | none => Except.error Err.nilDeref
      | some entryChild =>
        if entryChild.Visited then
          Except.ok (h.set entry
            { e with Links := e.Links.set idx (Link.str ("Backlink: " ++ entryChild.Name)) })
        else walk h c
    | _ => Except.ok h

/-- The loop of `walkEntry` over the indices still to visit. -/
def walkLinks (walk : Heap → Ptr → Except Err Heap) (entry : Ptr) :
    List Nat → Heap → Except Err Heap
  | [], h => Except.ok h
  | idx :: rest, h =>
    match walkStep walk entry h idx with
    | Except.error err => Except.error err
    | Except.ok h1 => walkLinks walk entry rest h1

/-- The function `walkEntry(entry)`. The first argument bounds the depth of the recursion. -/
def walkEntry : Nat → Heap → Ptr → Except Err Heap
  | 0, _, _ => Except.error Err.fuel
  | fuel + 1, h, entry =>
    match h[entry]? with
    | none => Except.error Err.nilDeref
    | some e =>
      if e.Visited then Except.ok h
      else
        match walkLinks (walkEntry fuel) entry (List.range e.Links.length)
            (h.set entry { e with Visited := true }) with
        | Except.error err => Except.error err
        | Except.ok h1 =>
          match h1[entry]? with
          | none => Except.error Err.nilDeref
          | some e1 => Except.ok (h1.set entry { e1 with Visited := false })

/-- The node at `a` holds a live reference to the node at `b` in its `Links`. -/
def liveEdge (h : Heap) (a b : Nat) : Prop :=
  ∃ e, h[a]? = some e ∧ Link.node b ∈ e.Links

/-- A sequence of nodes, each holding a live reference to the next. -/
def LivePath (h : Heap) (path : List Nat) : Prop :=
  path.Chain' (liveEdge h)

/-- The node at `b` can be reached from the node at `a` along live references. -/
def Reach (h : Heap) (a b : Nat) : Prop :=
  Relation.ReflTransGen (liveEdge h) a b

/-- Every live reference points to an allocated node. -/
def PtrsValid (h : Heap) : Prop :=
  ∀ (p : Nat) e c, h[p]? = some e → Link.node c ∈ e.Links → c < h.length

/-- No node is marked `Visited`. -/
def NoneVisited (h : Heap) : Prop :=
  ∀ (p : Nat) e, h[p]? = some e → e.Visited = false

/-- Every marker met at the end of a live path from `root` names a node of that path. -/
def MarkersNameAncestors (h : Heap) (root : Nat) : Prop :=
  ∀ (path : List Nat) (last : Nat) (e : CallGraphNode) (name : String),
    LivePath h (root :: path) → (root :: path).getLast? = some last → h[last]? = some e →
    Link.str ("Backlink: " ++ name) ∈ e.Links →
    ∃ q, q ∈ root :: path ∧ ∃ eq, h[q]? = some eq ∧ eq.Name = name

/-! ## Go strings as bytes, and the buffered writer -/

/-- A Go string as it is written out: a sequence of bytes. -/
abbrev Bytes := List UInt8

/-- The bytes of a text: Go keeps a text as its UTF-8 encoding. -/
def utf8 (s : String) : Bytes := s.toUTF8.data.toList

/-- A `bufio.Writer` on the output file. The field `file` holds the bytes the file has
received, in order; `buf` holds the bytes that wait in the buffer. -/
structure Writer where
  file : Bytes
  buf : Bytes
deriving DecidableEq

/-- The size of the buffer `bufio.NewWriter` allocates. -/
def defaultBufSize : Nat := 4096

/-- The call `bufio.NewWriter(file)` on the file `os.Create` has just created or truncated. -/
def NewWriter : Writer := { file := [], buf := [] }

/-- The method `Available`: the room left in the buffer. -/
def Writer.Available (b : Writer) : Nat := defaultBufSize - b.buf.length

/-- The method `Flush`: the buffer goes to the file. The file accepts every write. -/
def Writer.Flush (b : Writer) : Writer := { file := b.file ++ b.buf, buf := [] }

/-- The method `WriteString(s)` of the Go standard library. A string that fits is copied into
the buffer. Otherwise the loop of the method runs: on an empty buffer the whole string goes
to the file at once; on a buffer in use the buffer is filled and flushed, and the
rest of the string is treated the same way on the buffer that is now empty. Older releases
of the library fill and flush the buffer on an empty buffer too; the releases differ only
for a string that is longer than the buffer. -/
def Writer.WriteString (b : Writer) (s : Bytes) : Writer :=
  if s.length ≤ b.Available then { b with buf := b.buf ++ s }
  else if b.buf.length = 0 then { file := b.file ++ s, buf := [] }
  else
    let b1 := Writer.Flush { b with buf := b.buf ++ s.take b.Available }
    let s1 := s.drop b.Available
    if s1.length ≤ b1.Available then { b1 with buf := s1 }
    else { file := b1.file ++ s1, buf := [] }

/-- Every byte the writer has been handed, in order: those in the file, then those in the
buffer. -/
def Writer.text (b : Writer) : Bytes := b.file ++ b.buf

/-! ## Renderer: `formatName`, `writeEntry`, `writeEntries`, `writeToHtml` -/

/-- The call `strings.Split(s, "\t ")`: `acc` is the current token, reversed. -/
def splitTabSpace : Bytes → Bytes → List Bytes
  | [], acc => [acc.reverse]
  | [c], acc => [(c :: acc).reverse]
  | c :: d :: rest, acc =>
    if c = 9 ∧ d = 32 then acc.reverse :: splitTabSpace rest []
    else splitTabSpace (d :: rest) (c :: acc)

/-- The function `formatName(title, callCount)`. The slice `title[1:]` panics on the empty string
and drops the first byte of any other. -/
def formatName (title : String) (callCount : Int) : Except Err Bytes :=
  if title = "" then Except.error Err.sliceBounds
  else
    let tokens := splitTabSpace ((utf8 title).drop 1) []
    let fmtTitle := (utf8 " ").intercalate tokens
    Except.ok (utf8 "calls: " ++ utf8 (toString callCount) ++ utf8 ", " ++ fmtTitle)

/-- The loop `for _, entry := range valgraph.Links` of `writeEntry`; `write` is the
recursive call. -/
def writeLinks (write : Writer → Link → Except Err Writer) :
    List Link → Writer → Except Err Writer
  | [], w => Except.ok w
  | entry :: rest, w =>
    match write (w.WriteString (utf8 "<li>")) entry with
    | Except.error err => Except.error err
    | Except.ok w1 => writeLinks write rest w1

/-- The function `writeEntry(writer, node)`: the writer after the call. The first argument
bounds the depth of the recursion. For a string `node` the pointer `valgraph` is nil and
`valgraph.Links` is a nil dereference. -/
def writeEntry : Nat → Heap → Writer → Link → Except Err Writer
  | 0, _, _, _ => Except.error Err.fuel
  | fuel + 1, h, w, Link.node p =>
    match h[p]? with
    | none => Except.error Err.nilDeref
    | some valgraph =>
      match formatName valgraph.Name valgraph.Count with
      | Except.error err => Except.error err
      | Except.ok title =>
        if valgraph.Links.length ≠ 0 then
          match writeLinks (writeEntry fuel h) valgraph.Links
              ((w.WriteString (utf8 "<details><summary><b>Expand/Collapse</b> " ++ title ++
                utf8 "</summary>\n")).WriteString (utf8 "<ul>\n")) with
          | Except.error err => Except.error err
          | Except.ok w1 =>
            Except.ok ((w1.WriteString (utf8 "</ul>\n")).WriteString (utf8 "</details>\n"))
        else Except.ok (w.WriteString title)
  | _ + 1, _, _, Link.str _ => Except.error Err.nilDeref

/-- The function `writeEntries(writer, topLevelList)`. -/
def writeEntries (fuel : Nat) (h : Heap) : List Link → Writer → Except Err Writer
  | [], w => Except.ok w
  | node :: rest, w =>
    match writeEntry fuel h w node with
    | Except.error err => Except.error err
    | Except.ok w1 => writeEntries fuel h rest w1

/-- The function `writeToHtml(outFile, topLevelList)`: the writer when the function returns. The
function never calls `Flush`, and the deferred `file.Close` closes the file as it is: the
document in `outFile` is the field `file`, and the bytes in `buf` are dropped. -/
def writeToHtml (fuel : Nat) (h : Heap) (topLevelList : List Link) : Except Err Writer :=
  writeEntries fuel h topLevelList (NewWriter.WriteString (utf8 "<html><body>\n"))

/-! ## `formatRes` and `main` -/

/-- The loop of `formatRes` that calls `walkEntry` on every element of `graphList`;
`entry.(*CallGraphNode)` panics for a string element. -/
def walkRoots (fuel : Nat) : List Link → Heap → Except Err Heap
  | [], h => Except.ok h
  | Link.str _ :: _, _ => Except.error Err.typeAssert
  | Link.node graph :: rest, h =>
    match walkEntry fuel h graph with
    | Except.error err => Except.error err
    | Except.ok h1 => walkRoots fuel rest h1

/-- The function `formatRes` up to the end of its loop: the sorted root list `graphList` and the heap
after every root has been walked. The recursion budget is one more than the number of
nodes. -/
def linearize (R : Runtime) (h : Heap) (res : Results) : Except Err (List Link × Heap) :=
  match sortVec R h (mapToList (R.rangeMap MapId.roots) res.TopLevelNode) with
  | Except.error err => Except.error err
  | Except.ok graphList =>
    match walkRoots (h.length + 1) graphList h with
    | Except.error err => Except.error err
    | Except.ok h1 => Except.ok (graphList, h1)

/-- The function `formatRes(res, outFile)`: the writer when `writeToHtml` returns. -/
def formatRes (R : Runtime) (h : Heap) (res : Results) : Except Err Writer :=
  match linearize R h res with
  | Except.error err => Except.error err
  | Except.ok r => writeToHtml (r.2.length + 1) r.2 r.1

/-- The function `main` after the command line is parsed, on the lines of the input file: the
writer when the program ends; its field `file` is the document the program leaves in the
output file. -/
def pipeline (R : Runtime) (lines : List String) : Except Err Writer :=
  let s := scanLines lines
  match sortByFrequences R s.heap s.res with
  | Except.error err => Except.error err
  | Except.ok h => formatRes R h s.res

/-! ## A concrete runtime -/

/-- The runtime used for concrete runs: `range` visits every map in insertion order and
`sort.Slice` is an insertion sort. -/
def stdRuntime : Runtime where
  rangeMap := fun _ m => m
  rangeMap_perm := fun _ m => List.Perm.refl m
  sortSlice := fun less l => l.insertionSort (fun a b => less b a = false)
  sortSlice_perm := fun _ l => List.perm_insertionSort _ l
  sortSlice_sorted := fun less l hw => by
    have hasymm : ∀ a b, less a b = true → less b a = false := by
      intro a b hab
      cases hba : less b a with
      | false => rfl
      | true => exact absurd (hw.trans a b a hab hba) (by simp [hw.irrefl a])
    have htotal : IsTotal Link (fun a b => less b a = false) :=
      ⟨fun a b => by
        cases hba : less b a with
        | false => exact Or.inl rfl
        | true => exact Or.inr (hasymm b a hba)⟩
    have htrans : IsTrans Link (fun a b => less b a = false) :=
      ⟨fun a b c hab hbc => by
        cases hca : less c a with
        | false => rfl
        | true =>
          cases h1 : less a b with
          | true => exact absurd (hw.trans c a b hca h1) (by simp [hbc])
          | false =>
            cases h2 : less b c with
            | true => exact absurd (hw.trans b c a h2 hca) (by simp [hab])
            | false => exact absurd (hw.incomp a b c h1 hab h2 hbc).2 (by simp [hca])⟩
    exact List.sorted_insertionSort _ l

/-! ## Vocabulary of the proofs -/

/-- A node that has not been observed yet: what `observe` starts from when it allocates. -/
def blankNode (line : String) : CallGraphNode :=
  { Count := 0, Name := line, Links := [], Map := [], Visited := false }

/-- What holds of the scanner state after the lines `lines` have been read. -/
structure ScanInv (lines : List String) (s : Scan) : Prop where
  reg_nodup : (s.res.MapNameToNode.map Prod.fst).Nodup
  reg_sound : ∀ k p, (k, p) ∈ s.res.MapNameToNode → ∃ e, s.heap[p]? = some e ∧ e.Name = k
  reg_complete : ∀ (p : Nat) e, s.heap[p]? = some e → (e.Name, p) ∈ s.res.MapNameToNode
  roots_nodup : (s.res.TopLevelNode.map Prod.fst).Nodup
  roots_sub : ∀ k p, (k, p) ∈ s.res.TopLevelNode → (k, p) ∈ s.res.MapNameToNode
  assoc_nodup : ∀ (p : Nat) e, s.heap[p]? = some e → (e.Map.map Prod.fst).Nodup
  assoc_sub : ∀ (p : Nat) e k c, s.heap[p]? = some e → (k, c) ∈ e.Map →
    (k, c) ∈ s.res.MapNameToNode
  fresh : ∀ (p : Nat) e, s.heap[p]? = some e → e.Links = [] ∧ e.Visited = false
  reg_keys : ∀ k, k ∈ s.res.MapNameToNode.map Prod.fst ↔ (k ∈ lines ∧ isSeparator k = false)
  count_eq : ∀ (p : Nat) e, s.heap[p]? = some e → e.Count = (lines.count e.Name : Int)
  prev_none : s.prevLineEntry = none → ∀ l, lines.getLast? = some l → isSeparator l = true
  prev_some : ∀ q, s.prevLineEntry = some q →
    ∃ pe, s.heap[q]? = some pe ∧ lines.getLast? = some pe.Name
  root_keys : ∀ k, k ∈ s.res.TopLevelNode.map Prod.fst ↔
    (isSeparator k = false ∧ ∃ sep, Adjacent lines k sep ∧ isSeparator sep = true)
  assoc_keys : ∀ (p : Nat) e k, s.heap[p]? = some e →
    (k ∈ e.Map.map Prod.fst ↔ (isSeparator k = false ∧ Adjacent lines k e.Name))

/-- A node without its `Links`. -/
def eraseLinks (e : CallGraphNode) : CallGraphNode :=
  { e with Links := [] }

/-- The heaps agree on everything but the `Links` of their nodes. -/
def SameButLinks (h h' : Heap) : Prop :=
  h'.map eraseLinks = h.map eraseLinks

/-- Counts do not increase from `a` to `b`, both being nodes of the heap. -/
def CountGE (h : Heap) (a b : Link) : Prop :=
  ∃ ca cb, linkCount h a = some ca ∧ linkCount h b = some cb ∧ cb ≤ ca

/-- The `Links` of a node are its associations, ordered by non-increasing `Count`. -/
def LinksSorted (h : Heap) (e : CallGraphNode) : Prop :=
  e.Links.Perm (e.Map.map fun kv => Link.node kv.2) ∧ e.Links.Pairwise (CountGE h)

/-- One position of `Links` before (`old`) and after (`new`): unchanged, or a live
reference to `c` replaced by the marker carrying the name of `c`, where `Q p c` records
why the edge from `p` to `c` was replaced. -/
def LinkRew (Q : Nat → Nat → Prop) (h : Heap) (p : Nat) (old new : Option Link) : Prop :=
  new = old ∨ ∃ c ce, old = some (Link.node c) ∧ h[c]? = some ce ∧
    new = some (Link.str ("Backlink: " ++ ce.Name)) ∧ Q p c

/-- A node before and after: only positions of `Links` change, as `LinkRew` allows. -/
structure NodeRew (Q : Nat → Nat → Prop) (h : Heap) (p : Nat) (e e' : CallGraphNode) :
    Prop where
  count : e'.Count = e.Count
  name : e'.Name = e.Name
  map : e'.Map = e.Map
  visited : e'.Visited = e.Visited
  links : ∀ i : Nat, LinkRew Q h p (e.Links[i]?) (e'.Links[i]?)

/-- The heap before and after: the same nodes, each rewritten as `NodeRew` allows. -/
structure Rew (Q : Nat → Nat → Prop) (h h' : Heap) : Prop where
  len : h'.length = h.length
  node : ∀ (p : Nat) e, h[p]? = some e → ∃ e', h'[p]? = some e' ∧ NodeRew Q h p e e'

/-- The `Visited` flags of all nodes. -/
def flags (h : Heap) : List Bool :=
  h.map fun e => e.Visited

/-- What the recursive call of `walkEntry` is known to do, with a recursion budget above
`bound` unvisited nodes: relative to the graph `h0` the walk started from. -/
def WalkSpec (h0 : Heap) (bound : Nat) (walk : Heap → Ptr → Except Err Heap) : Prop :=
  ∀ (h : Heap) (p : Nat), PtrsValid h → p < h.length → (flags h).count false < bound →
    (∀ a b, liveEdge h a b → liveEdge h0 a b) →
    (∀ v : Nat, (flags h)[v]? = some true → Reach h0 v p) →
    ∃ h', walk h p = Except.ok h' ∧
      Rew (fun n c => (flags h)[n]? = some false ∧ Reach h0 p n ∧ Reach h0 c n ∧
        ((flags h)[c]? = some true ∨ Reach h0 p c)) h h' ∧
      ((flags h)[p]? = some false → ∀ path, LivePath h' (p :: path) →
        (p :: path).Nodup ∧ ∀ q ∈ p :: path, (flags h)[q]? = some false)

/-- Every live path from `c` is free of repetitions and of nodes marked in `h1`. -/
def GoodChild (h1 hx : Heap) (c : Nat) : Prop :=
  ∀ path, LivePath hx (c :: path) →
    (c :: path).Nodup ∧ ∀ q ∈ c :: path, (flags h1)[q]? = some false

/-- The replacements the loop of `walkEntry` on `p` may make, `h1` being the heap in which
`p` has just been marked. -/
def LoopQ (h0 h1 : Heap) (p : Nat) (n c : Nat) : Prop :=
  (n = p ∨ (flags h1)[n]? = some false) ∧ Reach h0 p n ∧ Reach h0 c n ∧
    ((flags h1)[c]? = some true ∨ Reach h0 p c)

/-- Why the edge from `n` to `c` was replaced: in `h0` the node `c` lies on a path from
one of the `roots` to `n`, so that the edge closed a cycle of `h0`. -/
def CycleFrom (h0 : Heap) (roots : List Link) (n c : Nat) : Prop :=
  ∃ r, Link.node r ∈ roots ∧ Reach h0 r c ∧ Reach h0 c n

/-- A graph of two nodes that reference each other, and the first also itself. -/
def cyclicHeap : Heap :=
  [{ Count := 2, Name := "#A", Links := [Link.node 1, Link.node 0], Map := [], Visited := false },
   { Count := 1, Name := "#B", Links := [Link.node 0], Map := [], Visited := false }]

/-- The graph on the nodes of `h` in which every node references every node. -/
def completeGraph (h : Heap) : Heap :=
  h.map fun e => { e with Links := (List.range h.length).map Link.node }

/-- A graph without a cycle: the first node references the second, which has no child. -/
def chainHeap : Heap :=
  [{ Count := 2, Name := "#A", Links := [Link.node 1], Map := [], Visited := false },
   { Count := 1, Name := "#B", Links := [], Map := [], Visited := false }]

/-- A second runtime: `range` visits every map in reverse insertion order; `sort.Slice` is
the insertion sort of `stdRuntime`. -/
def revRuntime : Runtime :=
  { stdRuntime with
    rangeMap := fun _ m => m.reverse
    rangeMap_perm := fun _ m => List.reverse_perm m }

/-- No two nodes that are sorted together carry the same `Count`: not in the associations
of any node, and not among the roots. -/
def NoTies (s : Scan) : Prop :=
  (∀ e ∈ s.heap, (e.Map.map fun kv => linkCount s.heap (Link.node kv.2)).Nodup) ∧
  (s.res.TopLevelNode.map fun kv => linkCount s.heap (Link.node kv.2)).Nodup

/-- Replace every tab that is followed by a space, together with that space, by one
space, scanning from the left. -/
def replaceTabSpace : Bytes → Bytes
  | [] => []
  | [c] => [c]
  | c :: d :: rest =>
    if c = 9 ∧ d = 32 then 32 :: replaceTabSpace rest
    else c :: replaceTabSpace (d :: rest)

/-- The title `writeEntry` gives a node: its `Count`, and the bytes of its `Name` without the
first byte and with every tab-space pair replaced by a space. -/
def nodeTitle (e : CallGraphNode) : Bytes :=
  utf8 "calls: " ++ utf8 (toString e.Count) ++ utf8 ", " ++
    replaceTabSpace ((utf8 e.Name).drop 1)

/-- Below `p` every node is allocated, has a non-empty `Name` and holds only live
references to allocated nodes (no marker), and no path of live references from `p` visits
a node twice. -/
def Renderable (h : Heap) (p : Nat) : Prop :=
  (∀ q, Reach h p q → ∃ e, h[q]? = some e ∧ e.Name ≠ "" ∧
    ∀ l ∈ e.Links, ∃ c : Nat, l = Link.node c ∧ c < h.length) ∧
  (∀ path, LivePath h (p :: path) → (p :: path).Nodup)

/-- What `writeEntry` hands a writer for the node `e` at `q`: the title alone, in one
write, when `e` has no child; else a collapsible section with that title around a body,
the same body for every writer. -/
def RendersNode (h : Heap) (fuel : Nat) (q : Nat) (e : CallGraphNode) : Prop :=
  (e.Links = [] → ∀ w : Writer,
    writeEntry fuel h w (Link.node q) = Except.ok (w.WriteString (nodeTitle e))) ∧
  (e.Links ≠ [] → ∃ body, ∀ w : Writer, ∃ w1,
    writeEntry fuel h w (Link.node q) = Except.ok w1 ∧
    w1.text = w.text ++ (utf8 "<details><summary><b>Expand/Collapse</b> " ++ nodeTitle e ++
      utf8 "</summary>\n" ++ utf8 "<ul>\n" ++ body ++ utf8 "</ul>\n" ++
      utf8 "</details>\n"))

/-- The heap of the trace A, B after sorting and the walks: the root B references A. -/
def rootedHeap : Heap :=
  [{ Count := 1, Name := "#A", Links := [], Map := [], Visited := false },
   { Count := 1, Name := "#B", Links := [Link.node 0], Map := [("#A", 0)], Visited := false }]

/-! # Theorems -/

/-! ## Go maps as association lists -/

theorem GoMap.lookup_eq_none_iff {m : GoMap} {k : String} :
    List.lookup k m = none ↔ k ∉ m.map Prod.fst := by
  induction m with
  | nil => simp
  | cons kv m ih =>
    obtain ⟨k', v'⟩ := kv
    by_cases hk : k = k'
    · subst hk; simp [List.lookup_cons]
    · have : (k == k') = false := by simpa using hk
      simp [List.lookup_cons, this, ih, hk]

theorem GoMap.mem_of_lookup {m : GoMap} {k : String} {p : Ptr}
    (h : List.lookup k m = some p) : (k, p) ∈ m := by
  induction m with
  | nil => simp at h
  | cons kv m ih =>
    obtain ⟨k', v'⟩ := kv
    by_cases hk : k = k'
    · subst hk
      simp [List.lookup_cons] at h
      simp [h]
    · have : (k == k') = false := by simpa using hk
      simp [List.lookup_cons, this] at h
      exact List.mem_cons_of_mem _ (ih h)

theorem GoMap.lookup_of_mem {m : GoMap} {k : String} {p : Ptr}
    (hn : (m.map Prod.fst).Nodup) (h : (k, p) ∈ m) : List.lookup k m = some p := by
  induction m with
  | nil => simp at h
  | cons kv m ih =>
    obtain ⟨k', v'⟩ := kv
    rw [List.map_cons, List.nodup_cons] at hn
    rcases List.mem_cons.1 h with h1 | h1
    · cases h1; simp [List.lookup_cons]
    · have hk : k ≠ k' := by
        rintro rfl
        exact hn.1 (List.mem_map.2 ⟨(k, p), h1, rfl⟩)
      have : (k == k') = false := by simpa using hk
      simp [List.lookup_cons, this, ih hn.2 h1]

theorem GoMap.store_of_lookup_none {m : GoMap} {k : String} (v : Ptr)
    (h : List.lookup k m = none) : m.store k v = m ++ [(k, v)] := by
  induction m with
  | nil => rfl
  | cons kv m ih =>
    obtain ⟨k', v'⟩ := kv
    by_cases hk : k = k'
    · subst hk; simp [List.lookup_cons] at h
    · have hb : (k == k') = false := by simpa using hk
      simp only [List.lookup_cons, hb] at h
      have hk' : ¬ k' = k := fun e => hk e.symm
      simp [GoMap.store, hk', ih h]

theorem GoMap.store_of_lookup_some {m : GoMap} {k : String} {v : Ptr}
    (h : List.lookup k m = some v) : m.store k v = m := by
  induction m with
  | nil => simp at h
  | cons kv m ih =>
    obtain ⟨k', v'⟩ := kv
    by_cases hk : k = k'
    · subst hk
      simp [List.lookup_cons] at h
      simp [GoMap.store, h]
    · have hb : (k == k') = false := by simpa using hk
      simp [List.lookup_cons, hb] at h
      have hk' : ¬ k' = k := fun e => hk e.symm
      simp [GoMap.store, hk', ih h]

/-! ## One step of the scanner -/

theorem scanLines_append (lines : List String) (l : String) :
    scanLines (lines ++ [l]) = scanStep (scanLines lines) l := by
  simp [scanLines, List.foldl_append]

theorem scanStep_separator (s : Scan) (l : String) (hl : isSeparator l = true) :
    (scanStep s l).heap = s.heap ∧ (scanStep s l).prevLineEntry = none ∧
    (scanStep s l).res.MapNameToNode = s.res.MapNameToNode ∧
    (scanStep s l).res.TopLevelNode =
      (match s.prevLineEntry with
       | some prev =>
         match s.heap[prev]? with
         | some pe => s.res.TopLevelNode.store pe.Name prev
         | none => s.res.TopLevelNode
       | none => s.res.TopLevelNode) := by
  refine ⟨by simp [scanStep, onScanLine, hl], by simp [scanStep, onScanLine, hl], ?_, ?_⟩
  · unfold scanStep onScanLine
    simp only [hl, if_true]
    cases s.prevLineEntry with
    | none => rfl
    | some prev => cases hq : s.heap[prev]? <;> simp [hq]
  · unfold scanStep onScanLine
    simp only [hl, if_true]
    cases s.prevLineEntry with
    | none => rfl
    | some prev => cases hq : s.heap[prev]? <;> simp [hq]

/-- The effect of `observe` on a frame line: the pointer returned, the node it held before
(`blankNode` when it is allocated now) and the heap after the call. -/
theorem observe_spec (h : Heap) (res : Results) (l : String)
    (hreg : ∀ p, List.lookup l res.MapNameToNode = some p → ∃ e, h[p]? = some e ∧ e.Name = l) :
    ∃ entry old,
      (observe h res l).2.2 = entry ∧
      (observe h res l).2.1.TopLevelNode = res.TopLevelNode ∧
      ((h[entry]? = none ∧ old = blankNode l ∧ entry = h.length ∧
          List.lookup l res.MapNameToNode = none ∧
          (observe h res l).2.1.MapNameToNode = res.MapNameToNode ++ [(l, entry)] ∧
          (observe h res l).1.length = h.length + 1) ∨
        (h[entry]? = some old ∧ List.lookup l res.MapNameToNode = some entry ∧
          (observe h res l).2.1.MapNameToNode = res.MapNameToNode ∧
          (observe h res l).1.length = h.length)) ∧
      old.Name = l ∧
      (observe h res l).1[entry]? = some { old with Count := old.Count + 1 } ∧
      (∀ q, q ≠ entry → (observe h res l).1[q]? = h[q]?) := by
  unfold observe
  cases hlk : List.lookup l res.MapNameToNode with
  | none =>
    refine ⟨h.length, blankNode l, rfl, rfl, Or.inl ⟨by simp, rfl, rfl, rfl, ?_, by simp⟩,
      rfl, ?_, ?_⟩
    · simp [GoMap.store_of_lookup_none _ hlk]
    · simp [blankNode]
    · intro q hq
      simp only
      by_cases hlt : q < h.length
      · exact List.getElem?_append_left hlt
      · have h1 : h.length < q := Nat.lt_of_le_of_ne (Nat.le_of_not_lt hlt) (Ne.symm hq)
        rw [List.getElem?_eq_none (by simp; omega), List.getElem?_eq_none (by omega)]
  | some p =>
    obtain ⟨e, he, hname⟩ := hreg p hlk
    have hp : p < h.length := by
      rcases List.getElem?_eq_some.1 he with ⟨hp, _⟩
      exact hp
    refine ⟨p, e, by simp [he], by simp [he], Or.inr ⟨he, rfl, by simp [he], by simp [he]⟩,
      hname, ?_, ?_⟩
    · simp [he, List.getElem?_set, hp]
    · intro q hq
      simp [he, List.getElem?_set, Ne.symm hq]

/-- The effect of `link`: only `entry` changes, and only its `Map`. -/
theorem link_spec (h : Heap) (entry : Ptr) (prev : Option Ptr) (e : CallGraphNode)
    (he : h[entry]? = some e) (hprev : ∀ q, prev = some q → ∃ pe, h[q]? = some pe) :
    ∃ newMap,
      (link h entry prev).length = h.length ∧
      (link h entry prev)[entry]? = some { e with Map := newMap } ∧
      (∀ q, q ≠ entry → (link h entry prev)[q]? = h[q]?) ∧
      ((prev = none ∧ newMap = e.Map) ∨
        ∃ q pe, prev = some q ∧ h[q]? = some pe ∧
          ((List.lookup pe.Name e.Map = none ∧ newMap = e.Map ++ [(pe.Name, q)]) ∨
           ((∃ c, List.lookup pe.Name e.Map = some c) ∧ newMap = e.Map))) := by
  have hp : entry < h.length := by
    rcases List.getElem?_eq_some.1 he with ⟨hp, _⟩
    exact hp
  unfold link
  cases prev with
  | none => exact ⟨e.Map, rfl, by simp [he], fun q _ => rfl, Or.inl ⟨rfl, rfl⟩⟩
  | some q =>
    obtain ⟨pe, hpe⟩ := hprev q rfl
    simp only [hpe, he]
    cases hlk : List.lookup pe.Name e.Map with
    | none =>
      refine ⟨e.Map ++ [(pe.Name, q)], by simp, ?_, ?_, Or.inr ⟨q, pe, rfl, hpe, Or.inl ⟨hlk, rfl⟩⟩⟩
      · simp [List.getElem?_set, hp, GoMap.store_of_lookup_none _ hlk]
      · intro q' hq'
        simp [List.getElem?_set, Ne.symm hq']
    | some c =>
      exact ⟨e.Map, rfl, by simp [he], fun q _ => rfl,
        Or.inr ⟨q, pe, rfl, hpe, Or.inr ⟨⟨c, hlk⟩, rfl⟩⟩⟩

theorem adjacent_snoc (lines : List String) (l a b : String) :
    Adjacent (lines ++ [l]) a b ↔ Adjacent lines a b ∨ (lines.getLast? = some a ∧ l = b) := by
  unfold Adjacent
  constructor
  · rintro ⟨i, h1, h2⟩
    by_cases hi : i + 1 < lines.length
    · left
      refine ⟨i, ?_, ?_⟩
      · rwa [List.getElem?_append_left (by omega)] at h1
      · rwa [List.getElem?_append_left hi] at h2
    · by_cases hi2 : i + 1 = lines.length
      · right
        rw [List.getElem?_append_left (by omega)] at h1
        rw [hi2, List.getElem?_concat_length] at h2
        refine ⟨?_, by simpa using h2⟩
        rw [List.getLast?_eq_getElem?, ← h1]
        congr 1
        omega
      · rw [List.getElem?_eq_none (by simp; omega)] at h2
        cases h2
  · rintro (⟨i, h1, h2⟩ | ⟨h1, h2⟩)
    · have hi : i + 1 < lines.length := by
        rcases List.getElem?_eq_some.1 h2 with ⟨h, _⟩
        exact h
      refine ⟨i, ?_, ?_⟩
      · rwa [List.getElem?_append_left (by omega)]
      · rwa [List.getElem?_append_left hi]
    · rw [List.getLast?_eq_getElem?] at h1
      have hpos : lines.length - 1 < lines.length := by
        rcases List.getElem?_eq_some.1 h1 with ⟨h, _⟩
        exact h
      refine ⟨lines.length - 1, ?_, ?_⟩
      · rwa [List.getElem?_append_left hpos]
      · have : lines.length - 1 + 1 = lines.length := by omega
        rw [this, List.getElem?_concat_length, h2]

/-- The effect of one scanner step on a frame line. -/
theorem scanStep_frame (s : Scan) (l : String) (hl : isSeparator l = false)
    (hreg : ∀ p, List.lookup l s.res.MapNameToNode = some p →
      ∃ e, s.heap[p]? = some e ∧ e.Name = l)
    (hprev : ∀ q, s.prevLineEntry = some q → ∃ pe, s.heap[q]? = some pe) :
    ∃ entry old newMap,
      (scanStep s l).prevLineEntry = some entry ∧
      (scanStep s l).res.TopLevelNode = s.res.TopLevelNode ∧
      ((s.heap[entry]? = none ∧ old = blankNode l ∧
          List.lookup l s.res.MapNameToNode = none ∧
          (scanStep s l).res.MapNameToNode = s.res.MapNameToNode ++ [(l, entry)]) ∨
        (s.heap[entry]? = some old ∧ List.lookup l s.res.MapNameToNode = some entry ∧
          (scanStep s l).res.MapNameToNode = s.res.MapNameToNode)) ∧
      old.Name = l ∧
      (scanStep s l).heap[entry]? =
        some { old with Count := old.Count + 1, Map := newMap } ∧
      (∀ q, q ≠ entry → (scanStep s l).heap[q]? = s.heap[q]?) ∧
      ((s.prevLineEntry = none ∧ newMap = old.Map) ∨
        ∃ q pe, s.prevLineEntry = some q ∧ s.heap[q]? = some pe ∧
          ((List.lookup pe.Name old.Map = none ∧ newMap = old.Map ++ [(pe.Name, q)]) ∨
           ((∃ c, List.lookup pe.Name old.Map = some c) ∧ newMap = old.Map))) := by
  obtain ⟨entry, old, hentry, hroots, hcase, hname, hobs, hother⟩ :=
    observe_spec s.heap s.res l hreg
  have hprev1 : ∀ q, s.prevLineEntry = some q →
      ∃ pe, (observe s.heap s.res l).1[q]? = some pe := by
    intro q hq
    obtain ⟨pe, hpe⟩ := hprev q hq
    by_cases hqe : q = entry
    · subst hqe; exact ⟨_, hobs⟩
    · exact ⟨pe, by rw [hother q hqe, hpe]⟩
  obtain ⟨newMap, _, hl1, hl2, hl3⟩ :=
    link_spec (observe s.heap s.res l).1 entry s.prevLineEntry _ hobs hprev1
  have hstep : scanStep s l =
      { heap := link (observe s.heap s.res l).1 entry s.prevLineEntry,
        res := (observe s.heap s.res l).2.1, prevLineEntry := some entry } := by
    unfold scanStep onScanLine
    simp only [hl, hentry]
    simp
  refine ⟨entry, old, newMap, by rw [hstep], by rw [hstep]; exact hroots, ?_, hname,
    by rw [hstep]; exact hl1, ?_, ?_⟩
  · rcases hcase with ⟨h1, h2, _, h4, h5, _⟩ | ⟨h1, h2, h3, _⟩
    · exact Or.inl ⟨h1, h2, h4, by rw [hstep]; exact h5⟩
    · exact Or.inr ⟨h1, h2, by rw [hstep]; exact h3⟩
  · intro q hq
    rw [hstep]
    simp only
    rw [hl2 q hq, hother q hq]
  · rcases hl3 with ⟨h1, h2⟩ | ⟨q, pe, h1, h2, h3⟩
    · exact Or.inl ⟨h1, h2⟩
    · right
      obtain ⟨pe0, hpe0⟩ := hprev q h1
      have hn : pe.Name = pe0.Name := by
        by_cases hqe : q = entry
        · subst hqe
          rw [hobs] at h2
          cases h2
          rcases hcase with ⟨h1', _⟩ | ⟨h1', _⟩
          · rw [h1'] at hpe0; cases hpe0
          · rw [h1'] at hpe0; cases hpe0; rfl
        · rw [hother q hqe, hpe0] at h2
          cases h2; rfl
      refine ⟨q, pe0, h1, hpe0, ?_⟩
      rw [← hn]
      exact h3

theorem ScanInv.init : ScanInv [] initScan where
  reg_nodup := by simp [initScan]
  reg_sound := by simp [initScan]
  reg_complete := by simp [initScan]
  roots_nodup := by simp [initScan]
  roots_sub := by simp [initScan]
  assoc_nodup := by simp [initScan]
  assoc_sub := by simp [initScan]
  fresh := by simp [initScan]
  reg_keys := by simp [initScan]
  count_eq := by simp [initScan]
  prev_none := by simp
  prev_some := by simp [initScan]
  root_keys := by simp [initScan, Adjacent]
  assoc_keys := by simp [initScan]

theorem ScanInv.name_frame {lines : List String} {s : Scan} (inv : ScanInv lines s)
    {p : Nat} {e : CallGraphNode} (he : s.heap[p]? = some e) : isSeparator e.Name = false :=
  ((inv.reg_keys e.Name).1 (List.mem_map.2 ⟨_, inv.reg_complete p e he, rfl⟩)).2

theorem ScanInv.lookup_name {lines : List String} {s : Scan} (inv : ScanInv lines s)
    {p : Nat} {e : CallGraphNode} (he : s.heap[p]? = some e) :
    List.lookup e.Name s.res.MapNameToNode = some p :=
  GoMap.lookup_of_mem inv.reg_nodup (inv.reg_complete p e he)

theorem ScanInv.step_separator {lines : List String} {s : Scan} (inv : ScanInv lines s)
    (l : String) (hl : isSeparator l = true) : ScanInv (lines ++ [l]) (scanStep s l) := by
  obtain ⟨hheap, hprev, hreg, hroots⟩ := scanStep_separator s l hl
  have hne : ∀ (p : Nat) e, s.heap[p]? = some e → e.Name ≠ l := by
    intro p e he h
    have := inv.name_frame he
    rw [h, hl] at this
    cases this
  -- the new root map
  have hroots' : (scanStep s l).res.TopLevelNode = s.res.TopLevelNode ∨
      ∃ q pe, s.prevLineEntry = some q ∧ s.heap[q]? = some pe ∧
        List.lookup pe.Name s.res.TopLevelNode = none ∧
        (scanStep s l).res.TopLevelNode = s.res.TopLevelNode ++ [(pe.Name, q)] := by
    rw [hroots]
    cases hq : s.prevLineEntry with
    | none => exact Or.inl rfl
    | some q =>
      obtain ⟨pe, hpe, _⟩ := inv.prev_some q hq
      simp only [hpe]
      cases hlk : List.lookup pe.Name s.res.TopLevelNode with
      | none =>
        exact Or.inr ⟨q, pe, rfl, hpe, hlk, GoMap.store_of_lookup_none _ hlk⟩
      | some c =>
        left
        have h1 := inv.roots_sub _ _ (GoMap.mem_of_lookup hlk)
        have h2 := GoMap.lookup_of_mem inv.reg_nodup h1
        rw [inv.lookup_name hpe] at h2
        cases h2
        exact GoMap.store_of_lookup_some hlk
  have hrootkey : ∀ q pe, s.prevLineEntry = some q → s.heap[q]? = some pe →
      pe.Name ∈ (scanStep s l).res.TopLevelNode.map Prod.fst := by
    intro q pe hq hpe
    rw [hroots]
    simp only [hq, hpe]
    cases hlk : List.lookup pe.Name s.res.TopLevelNode with
    | none => rw [GoMap.store_of_lookup_none _ hlk]; simp
    | some c =>
      rw [GoMap.store_of_lookup_some]
      · exact List.mem_map.2 ⟨_, GoMap.mem_of_lookup hlk, rfl⟩
      · have h1 := inv.roots_sub _ _ (GoMap.mem_of_lookup hlk)
        have h2 := GoMap.lookup_of_mem inv.reg_nodup h1
        rw [inv.lookup_name hpe] at h2
        cases h2
        exact hlk
  refine
    { reg_nodup := by rw [hreg]; exact inv.reg_nodup
      reg_sound := by rw [hreg, hheap]; exact inv.reg_sound
      reg_complete := by rw [hreg, hheap]; exact inv.reg_complete
      roots_nodup := ?_
      roots_sub := ?_
      assoc_nodup := by rw [hheap]; exact inv.assoc_nodup
      assoc_sub := by rw [hreg, hheap]; exact inv.assoc_sub
      fresh := by rw [hheap]; exact inv.fresh
      reg_keys := ?_
      count_eq := ?_
      prev_none := ?_
      prev_some := by rw [hprev]; intro q hq; cases hq
      root_keys := ?_
      assoc_keys := ?_ }
  · rcases hroots' with h | ⟨q, pe, _, _, hlk, h⟩
    · rw [h]; exact inv.roots_nodup
    · rw [h, List.map_append, List.nodup_append]
      refine ⟨inv.roots_nodup, by simp, ?_⟩
      intro k hk hk'
      simp only [List.map_cons, List.map_nil, List.mem_singleton] at hk'
      subst hk'
      exact (GoMap.lookup_eq_none_iff.1 hlk) hk
  · intro k p hkp
    rw [hreg]
    rcases hroots' with h | ⟨q, pe, _, hpe, _, h⟩
    · rw [h] at hkp; exact inv.roots_sub k p hkp
    · rw [h] at hkp
      rcases List.mem_append.1 hkp with hkp | hkp
      · exact inv.roots_sub k p hkp
      · simp only [List.mem_singleton, Prod.mk.injEq] at hkp
        obtain ⟨rfl, rfl⟩ := hkp
        exact inv.reg_complete _ _ hpe
  · intro k
    rw [hreg, inv.reg_keys k]
    constructor
    · rintro ⟨h1, h2⟩
      exact ⟨List.mem_append_left _ h1, h2⟩
    · rintro ⟨h1, h2⟩
      rcases List.mem_append.1 h1 with h1 | h1
      · exact ⟨h1, h2⟩
      · simp only [List.mem_singleton] at h1
        subst h1
        rw [hl] at h2; cases h2
  · intro p e he
    rw [hheap] at he
    rw [inv.count_eq p e he, List.count_append, List.count_singleton]
    have : ¬ (l == e.Name) = true := by
      simpa using fun h => hne p e he h.symm
    simp [this]
  · intro _ l' hl'
    rw [List.getLast?_concat] at hl'
    cases hl'
    exact hl
  · intro k
    have hadj : (∃ sep, Adjacent (lines ++ [l]) k sep ∧ isSeparator sep = true) ↔
        ((∃ sep, Adjacent lines k sep ∧ isSeparator sep = true) ∨
          lines.getLast? = some k) := by
      constructor
      · rintro ⟨sep, h1, h2⟩
        rcases (adjacent_snoc lines l k sep).1 h1 with h1 | ⟨h1, _⟩
        · exact Or.inl ⟨sep, h1, h2⟩
        · exact Or.inr h1
      · rintro (⟨sep, h1, h2⟩ | h1)
        · exact ⟨sep, (adjacent_snoc lines l k sep).2 (Or.inl h1), h2⟩
        · exact ⟨l, (adjacent_snoc lines l k l).2 (Or.inr ⟨h1, rfl⟩), hl⟩
    rw [hadj]
    constructor
    · intro hk
      rcases hroots' with h | ⟨q, pe, hq, hpe, _, h⟩
      · rw [h] at hk
        obtain ⟨h1, h2⟩ := (inv.root_keys k).1 hk
        exact ⟨h1, Or.inl h2⟩
      · rw [h, List.map_append, List.mem_append] at hk
        rcases hk with hk | hk
        · obtain ⟨h1, h2⟩ := (inv.root_keys k).1 hk
          exact ⟨h1, Or.inl h2⟩
        · simp only [List.map_cons, List.map_nil, List.mem_singleton] at hk
          subst hk
          obtain ⟨pe', hpe', hlast⟩ := inv.prev_some q hq
          rw [hpe] at hpe'
          cases hpe'
          exact ⟨inv.name_frame hpe, Or.inr hlast⟩
    · rintro ⟨h1, h2 | h2⟩
      · have hk := (inv.root_keys k).2 ⟨h1, h2⟩
        rcases hroots' with h | ⟨q, pe, _, _, _, h⟩
        · rw [h]; exact hk
        · rw [h, List.map_append]; exact List.mem_append_left _ hk
      · cases hq : s.prevLineEntry with
        | none =>
          have := inv.prev_none hq k h2
          rw [h1] at this; cases this
        | some q =>
          obtain ⟨pe, hpe, hlast⟩ := inv.prev_some q hq
          rw [h2] at hlast
          cases hlast
          exact hrootkey q pe hq hpe
  · intro p e k he
    rw [hheap] at he
    rw [inv.assoc_keys p e k he]
    constructor
    · rintro ⟨h1, h2⟩
      exact ⟨h1, (adjacent_snoc lines l k e.Name).2 (Or.inl h2)⟩
    · rintro ⟨h1, h2⟩
      rcases (adjacent_snoc lines l k e.Name).1 h2 with h2 | ⟨_, h2⟩
      · exact ⟨h1, h2⟩
      · exact absurd h2.symm (hne p e he)

theorem ScanInv.step_frame {lines : List String} {s : Scan} (inv : ScanInv lines s)
    (l : String) (hl : isSeparator l = false) : ScanInv (lines ++ [l]) (scanStep s l) := by
  obtain ⟨entry, old, newMap, hprev, hroots, hcase, hname, hentry, hother, hmap⟩ :=
    scanStep_frame s l hl
      (fun p hp => inv.reg_sound l p (GoMap.mem_of_lookup hp))
      (fun q hq => (inv.prev_some q hq).imp fun _ h => h.1)
  -- where a node of the new heap comes from
  have horigin : ∀ (p : Nat) e, (scanStep s l).heap[p]? = some e →
      (p ≠ entry ∧ s.heap[p]? = some e) ∨
      (p = entry ∧ e = { old with Count := old.Count + 1, Map := newMap }) := by
    intro p e he
    by_cases hp : p = entry
    · subst hp
      rw [hentry] at he
      exact Or.inr ⟨rfl, (Option.some.inj he).symm⟩
    · rw [hother p hp] at he
      exact Or.inl ⟨hp, he⟩
  -- the registry grows by at most the new entry
  have hregsub : ∀ k p, (k, p) ∈ s.res.MapNameToNode →
      (k, p) ∈ (scanStep s l).res.MapNameToNode := by
    intro k p hkp
    rcases hcase with ⟨_, _, _, h⟩ | ⟨_, _, h⟩
    · rw [h]; exact List.mem_append_left _ hkp
    · rw [h]; exact hkp
  have hregnew : (l, entry) ∈ (scanStep s l).res.MapNameToNode := by
    rcases hcase with ⟨_, _, _, h⟩ | ⟨_, h2, h⟩
    · rw [h]; simp
    · rw [h]; exact GoMap.mem_of_lookup h2
  have hreginv : ∀ k p, (k, p) ∈ (scanStep s l).res.MapNameToNode →
      (k, p) ∈ s.res.MapNameToNode ∨ (k = l ∧ p = entry) := by
    intro k p hkp
    rcases hcase with ⟨_, _, _, h⟩ | ⟨_, _, h⟩
    · rw [h] at hkp
      rcases List.mem_append.1 hkp with hkp | hkp
      · exact Or.inl hkp
      · simp only [List.mem_singleton, Prod.mk.injEq] at hkp
        exact Or.inr hkp
    · rw [h] at hkp; exact Or.inl hkp
  -- other nodes carry another name
  have hne : ∀ (p : Nat) e, p ≠ entry → s.heap[p]? = some e → e.Name ≠ l := by
    intro p e hp he h
    have h1 := inv.lookup_name he
    rw [h] at h1
    rcases hcase with ⟨_, _, h2, _⟩ | ⟨_, h2, _⟩
    · rw [h2] at h1; cases h1
    · rw [h2] at h1; exact hp (Option.some.inj h1).symm
  -- the node found by `observe` has the properties of a heap node
  have hold_links : old.Links = [] ∧ old.Visited = false := by
    rcases hcase with ⟨_, h, _⟩ | ⟨h, _⟩
    · rw [h]; exact ⟨rfl, rfl⟩
    · exact inv.fresh _ _ h
  have hold_nodup : (old.Map.map Prod.fst).Nodup := by
    rcases hcase with ⟨_, h, _⟩ | ⟨h, _⟩
    · rw [h]; simp [blankNode]
    · exact inv.assoc_nodup _ _ h
  have hold_sub : ∀ k c, (k, c) ∈ old.Map → (k, c) ∈ s.res.MapNameToNode := by
    rcases hcase with ⟨_, h, _⟩ | ⟨h, _⟩
    · rw [h]; simp [blankNode]
    · exact fun k c => inv.assoc_sub _ _ k c h
  have hold_count : old.Count = (lines.count l : Int) := by
    rcases hcase with ⟨_, h, h2, _⟩ | ⟨h, _⟩
    · have hnot : l ∉ lines := by
        intro hmem
        exact (GoMap.lookup_eq_none_iff.1 h2) ((inv.reg_keys l).2 ⟨hmem, hl⟩)
      rw [h, List.count_eq_zero_of_not_mem hnot]
      rfl
    · rw [inv.count_eq _ _ h, hname]
  have hold_keys : ∀ k, k ∈ old.Map.map Prod.fst ↔
      (isSeparator k = false ∧ Adjacent lines k l) := by
    intro k
    rcases hcase with ⟨_, h, h2, _⟩ | ⟨h, _⟩
    · have hnot : l ∉ lines := by
        intro hmem
        exact (GoMap.lookup_eq_none_iff.1 h2) ((inv.reg_keys l).2 ⟨hmem, hl⟩)
      rw [h]
      simp only [blankNode, List.map_nil, List.not_mem_nil, false_iff, not_and]
      rintro _ ⟨i, _, hi⟩
      exact hnot (List.mem_iff_getElem?.2 ⟨_, hi⟩)
    · rw [inv.assoc_keys _ _ k h, hname]
  -- the entries of the new association map
  have hnew_mem : ∀ k c, (k, c) ∈ newMap → (k, c) ∈ old.Map ∨
      ∃ pe, s.prevLineEntry = some c ∧ s.heap[c]? = some pe ∧ pe.Name = k := by
    intro k c hkc
    rcases hmap with ⟨_, h⟩ | ⟨q, pe, hq, hpe, ⟨_, h⟩ | ⟨_, h⟩⟩
    · rw [h] at hkc; exact Or.inl hkc
    · rw [h] at hkc
      rcases List.mem_append.1 hkc with hkc | hkc
      · exact Or.inl hkc
      · simp only [List.mem_singleton, Prod.mk.injEq] at hkc
        obtain ⟨rfl, rfl⟩ := hkc
        exact Or.inr ⟨pe, hq, hpe, rfl⟩
    · rw [h] at hkc; exact Or.inl hkc
  have hnew_keys : ∀ k, k ∈ newMap.map Prod.fst ↔
      (k ∈ old.Map.map Prod.fst ∨
        ∃ q pe, s.prevLineEntry = some q ∧ s.heap[q]? = some pe ∧ pe.Name = k) := by
    intro k
    rcases hmap with ⟨hq, h⟩ | ⟨q, pe, hq, hpe, ⟨_, h⟩ | ⟨⟨c, hc⟩, h⟩⟩
    · rw [h]
      constructor
      · exact Or.inl
      · rintro (h1 | ⟨q, pe, h1, _⟩)
        · exact h1
        · rw [hq] at h1; cases h1
    · rw [h, List.map_append, List.mem_append]
      constructor
      · rintro (h1 | h1)
        · exact Or.inl h1
        · simp only [List.map_cons, List.map_nil, List.mem_singleton] at h1
          exact Or.inr ⟨q, pe, hq, hpe, h1.symm⟩
      · rintro (h1 | ⟨q', pe', h1, h2, h3⟩)
        · exact Or.inl h1
        · rw [hq] at h1; cases h1
          rw [hpe] at h2; cases h2
          right; simp [h3]
    · rw [h]
      constructor
      · exact Or.inl
      · rintro (h1 | ⟨q', pe', h1, h2, h3⟩)
        · exact h1
        · rw [hq] at h1; cases h1
          rw [hpe] at h2; cases h2
          rw [← h3]
          exact List.mem_map.2 ⟨_, GoMap.mem_of_lookup hc, rfl⟩
  have hnew_nodup : (newMap.map Prod.fst).Nodup := by
    rcases hmap with ⟨_, h⟩ | ⟨q, pe, hq, hpe, ⟨hlk, h⟩ | ⟨_, h⟩⟩
    · rw [h]; exact hold_nodup
    · rw [h, List.map_append, List.nodup_append]
      refine ⟨hold_nodup, by simp, ?_⟩
      intro k hk hk'
      simp only [List.map_cons, List.map_nil, List.mem_singleton] at hk'
      subst hk'
      exact (GoMap.lookup_eq_none_iff.1 hlk) hk
    · rw [h]; exact hold_nodup
  refine
    { reg_nodup := ?_
      reg_sound := ?_
      reg_complete := ?_
      roots_nodup := by rw [hroots]; exact inv.roots_nodup
      roots_sub := by rw [hroots]; exact fun k p h => hregsub k p (inv.roots_sub k p h)
      assoc_nodup := ?_
      assoc_sub := ?_
      fresh := ?_
      reg_keys := ?_
      count_eq := ?_
      prev_none := by rw [hprev]; intro h; cases h
      prev_some := ?_
      root_keys := ?_
      assoc_keys := ?_ }
  · rcases hcase with ⟨_, _, h2, h⟩ | ⟨_, _, h⟩
    · rw [h, List.map_append, List.nodup_append]
      refine ⟨inv.reg_nodup, by simp, ?_⟩
      intro k hk hk'
      simp only [List.map_cons, List.map_nil, List.mem_singleton] at hk'
      subst hk'
      exact (GoMap.lookup_eq_none_iff.1 h2) hk
    · rw [h]; exact inv.reg_nodup
  · intro k p hkp
    rcases hreginv k p hkp with h | ⟨rfl, rfl⟩
    · obtain ⟨e, he, hen⟩ := inv.reg_sound k p h
      by_cases hp : p = entry
      · subst hp
        refine ⟨_, hentry, ?_⟩
        rcases hcase with ⟨h1, _⟩ | ⟨h1, _⟩
        · rw [h1] at he; cases he
        · rw [h1] at he; cases he
          exact hen
      · exact ⟨e, by rw [hother p hp, he], hen⟩
    · exact ⟨_, hentry, hname⟩
  · intro p e he
    rcases horigin p e he with ⟨_, h⟩ | ⟨rfl, rfl⟩
    · exact hregsub _ _ (inv.reg_complete p e h)
    · simp only [hname]; exact hregnew
  · intro p e he
    rcases horigin p e he with ⟨_, h⟩ | ⟨rfl, rfl⟩
    · exact inv.assoc_nodup p e h
    · exact hnew_nodup
  · intro p e k c he hkc
    rcases horigin p e he with ⟨_, h⟩ | ⟨rfl, rfl⟩
    · exact hregsub _ _ (inv.assoc_sub p e k c h hkc)
    · rcases hnew_mem k c hkc with h | ⟨pe, _, hpe, rfl⟩
      · exact hregsub _ _ (hold_sub k c h)
      · exact hregsub _ _ (inv.reg_complete c pe hpe)
  · intro p e he
    rcases horigin p e he with ⟨_, h⟩ | ⟨rfl, rfl⟩
    · exact inv.fresh p e h
    · exact hold_links
  · intro k
    constructor
    · intro hk
      obtain ⟨⟨k', p⟩, hkp, rfl⟩ := List.mem_map.1 hk
      rcases hreginv k' p hkp with h | ⟨rfl, rfl⟩
      · obtain ⟨h1, h2⟩ := (inv.reg_keys k').1 (List.mem_map.2 ⟨_, h, rfl⟩)
        exact ⟨List.mem_append_left _ h1, h2⟩
      · exact ⟨by simp, hl⟩
    · rintro ⟨h1, h2⟩
      rcases List.mem_append.1 h1 with h1 | h1
      · obtain ⟨⟨k', p⟩, hkp, rfl⟩ := List.mem_map.1 ((inv.reg_keys k).2 ⟨h1, h2⟩)
        exact List.mem_map.2 ⟨_, hregsub _ _ hkp, rfl⟩
      · simp only [List.mem_singleton] at h1
        subst h1
        exact List.mem_map.2 ⟨_, hregnew, rfl⟩
  · intro p e he
    rcases horigin p e he with ⟨hp, h⟩ | ⟨rfl, rfl⟩
    · rw [inv.count_eq p e h, List.count_append, List.count_singleton]
      have : ¬ (l == e.Name) = true := by
        simpa using fun h' => hne p e hp h h'.symm
      simp [this]
    · simp only [hname, hold_count, List.count_append, List.count_singleton, beq_self_eq_true,
        if_true]
      push_cast
      rfl
  · intro q hq
    rw [hprev] at hq
    cases hq
    exact ⟨_, hentry, by simp [hname]⟩
  · intro k
    rw [hroots, inv.root_keys k]
    constructor
    · rintro ⟨h1, sep, h2, h3⟩
      exact ⟨h1, sep, (adjacent_snoc lines l k sep).2 (Or.inl h2), h3⟩
    · rintro ⟨h1, sep, h2, h3⟩
      rcases (adjacent_snoc lines l k sep).1 h2 with h2 | ⟨_, h2⟩
      · exact ⟨h1, sep, h2, h3⟩
      · rw [← h2, hl] at h3; cases h3
  · intro p e k he
    rcases horigin p e he with ⟨hp, h⟩ | ⟨rfl, rfl⟩
    · rw [inv.assoc_keys p e k h]
      constructor
      · rintro ⟨h1, h2⟩
        exact ⟨h1, (adjacent_snoc lines l k e.Name).2 (Or.inl h2)⟩
      · rintro ⟨h1, h2⟩
        rcases (adjacent_snoc lines l k e.Name).1 h2 with h2 | ⟨_, h2⟩
        · exact ⟨h1, h2⟩
        · exact absurd h2.symm (hne p e hp h)
    · simp only [hname]
      rw [hnew_keys k, hold_keys k, adjacent_snoc]
      constructor
      · rintro (⟨h1, h2⟩ | ⟨q, pe, hq, hpe, rfl⟩)
        · exact ⟨h1, Or.inl h2⟩
        · obtain ⟨pe', hpe', hlast⟩ := inv.prev_some q hq
          rw [hpe] at hpe'; cases hpe'
          exact ⟨inv.name_frame hpe, Or.inr ⟨hlast, rfl⟩⟩
      · rintro ⟨h1, h2 | ⟨h2, _⟩⟩
        · exact Or.inl ⟨h1, h2⟩
        · cases hq : s.prevLineEntry with
          | none =>
            have := inv.prev_none hq k h2
            rw [h1] at this; cases this
          | some q =>
            obtain ⟨pe, hpe, hlast⟩ := inv.prev_some q hq
            rw [h2] at hlast
            cases hlast
            exact Or.inr ⟨q, pe, rfl, hpe, rfl⟩

theorem scanLines_inv (lines : List String) : ScanInv lines (scanLines lines) := by
  induction lines using List.reverseRecOn with
  | nil => exact ScanInv.init
  | append_singleton lines l ih =>
    rw [scanLines_append]
    cases hl : isSeparator l with
    | true => exact ih.step_separator l hl
    | false => exact ih.step_frame l hl

/-! ## The frequency sorter -/

theorem SameButLinks.same_refl (h : Heap) : SameButLinks h h := rfl

theorem SameButLinks.same_trans {h1 h2 h3 : Heap} (a : SameButLinks h1 h2) (b : SameButLinks h2 h3) :
    SameButLinks h1 h3 := by
  unfold SameButLinks at *
  rw [b, a]

theorem SameButLinks.same_length {h h' : Heap} (a : SameButLinks h h') : h'.length = h.length := by
  have := congrArg List.length a
  simpa using this

theorem SameButLinks.get {h h' : Heap} (a : SameButLinks h h') (p : Nat) :
    (h'[p]?).map eraseLinks = (h[p]?).map eraseLinks := by
  have := congrArg (fun l => l[p]?) a
  simpa [List.getElem?_map] using this

theorem SameButLinks.node {h h' : Heap} (a : SameButLinks h h') {p : Nat} {e : CallGraphNode}
    (he : h[p]? = some e) : ∃ e', h'[p]? = some e' ∧ eraseLinks e' = eraseLinks e := by
  have := a.get p
  rw [he] at this
  cases h' : h'[p]? with
  | none => rw [h'] at this; cases this
  | some e' =>
    rw [h'] at this
    exact ⟨e', rfl, Option.some.inj this⟩

theorem SameButLinks.symm {h h' : Heap} (a : SameButLinks h h') : SameButLinks h' h :=
  Eq.symm a

theorem SameButLinks.set {h : Heap} {p : Nat} {e : CallGraphNode} (he : h[p]? = some e)
    (links : List Link) : SameButLinks h (h.set p { e with Links := links }) := by
  unfold SameButLinks
  rw [List.map_set]
  apply List.ext_getElem?
  intro i
  rw [List.getElem?_set]
  split
  · rename_i hpi
    subst hpi
    simp only [List.length_map, List.getElem?_map, he, Option.map_some']
    split
    · rfl
    · rename_i hlt
      exact absurd (List.getElem?_eq_some.1 he).1 hlt
  · rfl

theorem eraseLinks_eq {e e' : CallGraphNode} (h : eraseLinks e' = eraseLinks e) :
    e'.Count = e.Count ∧ e'.Name = e.Name ∧ e'.Map = e.Map ∧ e'.Visited = e.Visited := by
  have h1 := congrArg CallGraphNode.Count h
  have h2 := congrArg CallGraphNode.Name h
  have h3 := congrArg CallGraphNode.Map h
  have h4 := congrArg CallGraphNode.Visited h
  exact ⟨h1, h2, h3, h4⟩

theorem SameButLinks.linkCount {h h' : Heap} (a : SameButLinks h h') (l : Link) :
    linkCount h' l = linkCount h l := by
  cases l with
  | str s => rfl
  | node p =>
    simp only [ParseProf.linkCount]
    have := congrArg (Option.map CallGraphNode.Count) (a.get p)
    simpa [Option.map_map, Function.comp_def, eraseLinks] using this

theorem sortLess_strictWeak (h : Heap) : StrictWeak (sortLess h) where
  irrefl := by intro a; simp [sortLess]
  trans := by
    intro a b c
    simp only [sortLess, decide_eq_true_eq]
    omega
  incomp := by
    intro a b c
    simp only [sortLess, decide_eq_false_iff_not]
    omega

theorem sortVec_spec (R : Runtime) (h : Heap) (links : List Link)
    (hv : ∀ l ∈ links, (linkCount h l).isSome = true) :
    ∃ out, sortVec R h links = Except.ok out ∧ out.Perm links ∧
      out.Pairwise (CountGE h) := by
  unfold sortVec
  split
  · rename_i hlen
    refine ⟨links, rfl, List.Perm.refl _, ?_⟩
    match links, hlen with
    | [], _ => exact List.Pairwise.nil
    | [a], _ => exact List.pairwise_singleton _ _
    | _ :: _ :: _, hlen => simp at hlen; omega
  · have hall : (links.all fun l => (linkCount h l).isSome) = true := by
      rw [List.all_eq_true]; exact hv
    rw [if_pos hall]
    refine ⟨_, rfl, R.sortSlice_perm _ _, ?_⟩
    have hs := R.sortSlice_sorted (sortLess h) links (sortLess_strictWeak h)
    have hmem : ∀ l ∈ R.sortSlice (sortLess h) links, (linkCount h l).isSome = true :=
      fun l hl => hv l ((R.sortSlice_perm _ _).mem_iff.1 hl)
    refine List.Pairwise.imp_of_mem ?_ hs
    intro a b ha hb hab
    obtain ⟨ca, hca⟩ := Option.isSome_iff_exists.1 (hmem a ha)
    obtain ⟨cb, hcb⟩ := Option.isSome_iff_exists.1 (hmem b hb)
    refine ⟨ca, cb, hca, hcb, ?_⟩
    simp only [sortLess, hca, hcb, Option.getD_some, decide_eq_false_iff_not] at hab
    omega

theorem CountGE.count_mono {h h' : Heap} (a : SameButLinks h h') {x y : Link} (c : CountGE h x y) :
    CountGE h' x y := by
  obtain ⟨ca, cb, h1, h2, h3⟩ := c
  exact ⟨ca, cb, by rw [a.linkCount, h1], by rw [a.linkCount, h2], h3⟩

theorem LinksSorted.sorted_mono {h h' : Heap} (a : SameButLinks h h') {e : CallGraphNode}
    (c : LinksSorted h e) : LinksSorted h' e :=
  ⟨c.1, c.2.imp fun hxy => hxy.count_mono a⟩

theorem sortEntries_spec (R : Runtime) (l : List (String × Ptr)) :
    ∀ (h : Heap), (∀ kv ∈ l, kv.2 < h.length) →
      (∀ (p : Nat) e, h[p]? = some e → ∀ kc ∈ e.Map, kc.2 < h.length) →
      ∃ h', sortEntries R l h = Except.ok h' ∧ SameButLinks h h' ∧
        (∀ p : Nat, p ∉ l.map Prod.snd → h'[p]? = h[p]?) ∧
        (∀ kv ∈ l, ∃ e, h'[kv.2]? = some e ∧ LinksSorted h' e) := by
  induction l with
  | nil =>
    intro h _ _
    exact ⟨h, rfl, SameButLinks.same_refl h, fun _ _ => rfl, by simp⟩
  | cons kv rest ih =>
    intro h hvalid hmaps
    have hlt : kv.2 < h.length := hvalid kv (List.mem_cons_self _ _)
    obtain ⟨e, he⟩ : ∃ e, h[kv.2]? = some e := ⟨_, List.getElem?_eq_getElem hlt⟩
    have hv : ∀ l ∈ mapToList (R.rangeMap (MapId.assoc kv.2)) e.Map,
        (linkCount h l).isSome = true := by
      intro l hl
      obtain ⟨kc, hkc, rfl⟩ := List.mem_map.1 hl
      have hkc' := (R.rangeMap_perm _ _).mem_iff.1 hkc
      have := hmaps kv.2 e he kc hkc'
      simp [linkCount, List.getElem?_eq_getElem this]
    obtain ⟨links, hsort, hperm, hpw⟩ := sortVec_spec R h _ hv
    have hsame : SameButLinks h (h.set kv.2 { e with Links := links }) :=
      SameButLinks.set he links
    have hvalid1 : ∀ kv' ∈ rest, kv'.2 < (h.set kv.2 { e with Links := links }).length := by
      intro kv' hkv'
      rw [List.length_set]
      exact hvalid kv' (List.mem_cons_of_mem _ hkv')
    have hmaps1 : ∀ (p : Nat) e', (h.set kv.2 { e with Links := links })[p]? = some e' →
        ∀ kc ∈ e'.Map, kc.2 < (h.set kv.2 { e with Links := links }).length := by
      intro p e' he' kc hkc
      rw [List.length_set]
      obtain ⟨e0, he0, heq⟩ := hsame.symm.node he'
      rw [← (eraseLinks_eq heq).2.2.1] at hkc
      exact hmaps p e0 he0 kc hkc
    obtain ⟨h', hrun, hsame', hother, hsorted⟩ := ih _ hvalid1 hmaps1
    refine ⟨h', ?_, hsame.same_trans hsame', ?_, ?_⟩
    · simp only [sortEntries, he, hsort]
      exact hrun
    · intro p hp
      simp only [List.map_cons, List.mem_cons, not_or] at hp
      rw [hother p hp.2, List.getElem?_set_ne (Ne.symm hp.1)]
    · intro kv' hkv'
      rcases List.mem_cons.1 hkv' with rfl | hkv'
      · by_cases hin : kv'.2 ∈ rest.map Prod.snd
        · obtain ⟨kv2, hkv2, heq⟩ := List.mem_map.1 hin
          obtain ⟨e2, he2, hs2⟩ := hsorted kv2 hkv2
          exact ⟨e2, by rw [← heq]; exact he2, hs2⟩
        · refine ⟨{ e with Links := links }, ?_, ?_⟩
          · rw [hother _ hin, List.getElem?_set_self hlt]
          · refine ⟨?_, hpw.imp fun hxy => hxy.count_mono (hsame.same_trans hsame')⟩
            exact hperm.trans ((R.rangeMap_perm _ _).map _)
      · exact hsorted kv' hkv'

/-! ## Edge rewriting: how `walkEntry` may change the heap -/

theorem LinkRew.link_refl (Q : Nat → Nat → Prop) (h : Heap) (p : Nat) (l : Option Link) :
    LinkRew Q h p l l := Or.inl rfl

theorem NodeRew.node_refl (Q : Nat → Nat → Prop) (h : Heap) (p : Nat) (e : CallGraphNode) :
    NodeRew Q h p e e :=
  ⟨rfl, rfl, rfl, rfl, fun _ => LinkRew.link_refl Q h p _⟩

theorem Rew.rew_refl (Q : Nat → Nat → Prop) (h : Heap) : Rew Q h h :=
  ⟨rfl, fun p e he => ⟨e, he, NodeRew.node_refl Q h p e⟩⟩

theorem Rew.rew_mono {Q Q' : Nat → Nat → Prop} {h h' : Heap} (r : Rew Q h h')
    (hQ : ∀ p c, Q p c → Q' p c) : Rew Q' h h' := by
  refine ⟨r.len, fun p e he => ?_⟩
  obtain ⟨e', he', n⟩ := r.node p e he
  refine ⟨e', he', n.count, n.name, n.map, n.visited, fun i => ?_⟩
  rcases n.links i with h1 | ⟨c, ce, h1, h2, h3, h4⟩
  · exact Or.inl h1
  · exact Or.inr ⟨c, ce, h1, h2, h3, hQ p c h4⟩

theorem Rew.node' {Q : Nat → Nat → Prop} {h h' : Heap} (r : Rew Q h h') {p : Nat}
    {e' : CallGraphNode} (he' : h'[p]? = some e') :
    ∃ e, h[p]? = some e ∧ NodeRew Q h p e e' := by
  have hp : p < h.length := by
    rw [← r.len]; exact (List.getElem?_eq_some.1 he').1
  obtain ⟨e'', he'', n⟩ := r.node p _ (List.getElem?_eq_getElem hp)
  rw [he'] at he''
  cases he''
  exact ⟨_, List.getElem?_eq_getElem hp, n⟩

theorem Rew.rew_trans {Q : Nat → Nat → Prop} {h1 h2 h3 : Heap} (a : Rew Q h1 h2)
    (b : Rew Q h2 h3) : Rew Q h1 h3 := by
  refine ⟨b.len.trans a.len, fun p e he => ?_⟩
  obtain ⟨e2, he2, n2⟩ := a.node p e he
  obtain ⟨e3, he3, n3⟩ := b.node p e2 he2
  refine ⟨e3, he3, n3.count.trans n2.count, n3.name.trans n2.name, n3.map.trans n2.map,
    n3.visited.trans n2.visited, fun i => ?_⟩
  rcases n3.links i with h3' | ⟨c, ce, h3a, h3b, h3c, h3d⟩
  · rw [h3']; exact n2.links i
  · rcases n2.links i with h2' | ⟨c', ce', h2a, h2b, h2c, h2d⟩
    · obtain ⟨ce1, hce1, nc⟩ := a.node' h3b
      exact Or.inr ⟨c, ce1, by rw [← h2', h3a], hce1, by rw [h3c, nc.name], h3d⟩
    · rw [h2c] at h3a; cases h3a

/-- Rewriting removes live edges and adds none. -/
theorem Rew.liveEdge {Q : Nat → Nat → Prop} {h h' : Heap} (r : Rew Q h h') {a b : Nat}
    (e : liveEdge h' a b) : liveEdge h a b := by
  obtain ⟨e', he', hmem⟩ := e
  obtain ⟨e0, he0, n⟩ := r.node' he'
  refine ⟨e0, he0, ?_⟩
  obtain ⟨i, hi⟩ := List.mem_iff_getElem?.1 hmem
  rcases n.links i with h1 | ⟨c, ce, _, _, h3, _⟩
  · rw [hi] at h1
    exact List.mem_iff_getElem?.2 ⟨i, h1.symm⟩
  · rw [hi] at h3; cases h3

theorem Rew.livePath {Q : Nat → Nat → Prop} {h h' : Heap} (r : Rew Q h h') {path : List Nat}
    (c : LivePath h' path) : LivePath h path :=
  List.Chain'.imp (fun _ _ e => r.liveEdge e) c

theorem Rew.ptrsValid {Q : Nat → Nat → Prop} {h h' : Heap} (r : Rew Q h h')
    (v : PtrsValid h) : PtrsValid h' := by
  intro p e' c he' hmem
  obtain ⟨e0, he0, hm⟩ := r.liveEdge ⟨e', he', hmem⟩
  rw [r.len]
  exact v p e0 c he0 hm

theorem Rew.flags_eq {Q : Nat → Nat → Prop} {h h' : Heap} (r : Rew Q h h') :
    h'.map (fun e => e.Visited) = h.map (fun e => e.Visited) := by
  apply List.ext_getElem?
  intro i
  simp only [List.getElem?_map]
  cases hi : h[i]? with
  | none =>
    rw [List.getElem?_eq_none_iff] at hi
    rw [List.getElem?_eq_none (by rw [r.len]; exact hi)]
  | some e =>
    obtain ⟨e', he', n⟩ := r.node i e hi
    rw [he']
    simp [n.visited]

theorem Rew.visited {Q : Nat → Nat → Prop} {h h' : Heap} (r : Rew Q h h') {p : Nat}
    {e e' : CallGraphNode} (he : h[p]? = some e) (he' : h'[p]? = some e') :
    e'.Visited = e.Visited := by
  obtain ⟨e'', he'', n⟩ := r.node p e he
  rw [he'] at he''
  cases he''
  exact n.visited

/-- A node for which `Q` allows no replacement keeps its `Links`. -/
theorem Rew.links_eq {Q : Nat → Nat → Prop} {h h' : Heap} (r : Rew Q h h') {p : Nat}
    {e e' : CallGraphNode} (he : h[p]? = some e) (he' : h'[p]? = some e')
    (hQ : ∀ c, ¬ Q p c) : e'.Links = e.Links := by
  obtain ⟨e'', he'', n⟩ := r.node p e he
  rw [he'] at he''
  cases he''
  apply List.ext_getElem?
  intro i
  rcases n.links i with h1 | ⟨c, _, _, _, _, h4⟩
  · exact h1
  · exact absurd h4 (hQ c)

/-- Replacing the live reference at position `idx` of `p` by the marker of its target. -/
theorem Rew.set_link {Q : Nat → Nat → Prop} {h : Heap} {p idx c : Nat}
    {e ce : CallGraphNode} (he : h[p]? = some e) (hl : e.Links[idx]? = some (Link.node c))
    (hc : h[c]? = some ce) (hQ : Q p c) :
    Rew Q h (h.set p { e with Links := e.Links.set idx (Link.str ("Backlink: " ++ ce.Name)) }) := by
  have hp : p < h.length := (List.getElem?_eq_some.1 he).1
  refine ⟨List.length_set _ _ _, fun q eq heq => ?_⟩
  by_cases hq : q = p
  · subst hq
    rw [he] at heq
    cases heq
    refine ⟨_, List.getElem?_set_self hp, rfl, rfl, rfl, rfl, fun i => ?_⟩
    by_cases hi : i = idx
    · subst hi
      right
      refine ⟨c, ce, hl, hc, ?_, hQ⟩
      simp only
      rw [List.getElem?_set_self (List.getElem?_eq_some.1 hl).1]
    · left
      simp only
      rw [List.getElem?_set_ne (Ne.symm hi)]
  · refine ⟨eq, ?_, NodeRew.node_refl Q h q eq⟩
    rw [List.getElem?_set_ne (Ne.symm hq)]
    exact heq

/-- Marking `p` before a rewriting and unmarking it afterwards is a rewriting. -/
theorem Rew.unflag {Q : Nat → Nat → Prop} {h h2 : Heap} {p : Nat} {e e2 : CallGraphNode}
    (he : h[p]? = some e) (hv : e.Visited = false)
    (r : Rew Q (h.set p { e with Visited := true }) h2) (he2 : h2[p]? = some e2) :
    Rew Q h (h2.set p { e2 with Visited := false }) := by
  have hp : p < h.length := (List.getElem?_eq_some.1 he).1
  have hget : ∀ (c : Nat) ce, (h.set p { e with Visited := true })[c]? = some ce →
      ∃ ce0, h[c]? = some ce0 ∧ ce0.Name = ce.Name := by
    intro c ce hce
    by_cases hc : c = p
    · subst hc
      rw [List.getElem?_set_self hp] at hce
      cases hce
      exact ⟨e, he, rfl⟩
    · rw [List.getElem?_set_ne (Ne.symm hc)] at hce
      exact ⟨ce, hce, rfl⟩
  have hlinks : ∀ (q : Nat) (a b : Option Link),
      LinkRew Q (h.set p { e with Visited := true }) q a b → LinkRew Q h q a b := by
    intro q a b hab
    rcases hab with h1 | ⟨c, ce, h1, h2, h3, h4⟩
    · exact Or.inl h1
    · obtain ⟨ce0, hce0, hn⟩ := hget c ce h2
      exact Or.inr ⟨c, ce0, h1, hce0, by rw [hn]; exact h3, h4⟩
  refine ⟨by rw [List.length_set, r.len, List.length_set], fun q eq heq => ?_⟩
  have hp2 : p < h2.length := (List.getElem?_eq_some.1 he2).1
  by_cases hq : q = p
  · subst hq
    rw [he] at heq
    cases heq
    obtain ⟨e2', he2', n⟩ := r.node q _ (List.getElem?_set_self hp)
    rw [he2] at he2'
    cases he2'
    exact ⟨_, List.getElem?_set_self hp2, n.count, n.name, n.map, hv.symm,
      fun i => hlinks q _ _ (n.links i)⟩
  · have h1 : (h.set p { e with Visited := true })[q]? = some eq := by
      rw [List.getElem?_set_ne (Ne.symm hq)]; exact heq
    obtain ⟨eq', heq', n⟩ := r.node q eq h1
    refine ⟨eq', ?_, n.count, n.name, n.map, n.visited, fun i => hlinks q _ _ (n.links i)⟩
    rw [List.getElem?_set_ne (Ne.symm hq)]
    exact heq'

/-! ## The linearizer `walkEntry` -/

theorem flags_get {h : Heap} {p : Nat} {e : CallGraphNode} (he : h[p]? = some e) :
    (flags h)[p]? = some e.Visited := by
  simp [flags, List.getElem?_map, he]

theorem flags_set_visited {h : Heap} {p : Nat} {e : CallGraphNode} (b : Bool) :
    flags (h.set p { e with Visited := b }) = (flags h).set p b := by
  simp [flags, List.map_set]

theorem count_false_set {l : List Bool} {p : Nat} (h : l[p]? = some false) :
    (l.set p true).count false + 1 = l.count false := by
  have hp : p < l.length := (List.getElem?_eq_some.1 h).1
  rw [List.count_set _ _ _ _ hp]
  have : l[p] = false := (List.getElem?_eq_some.1 h).2
  have hpos : 0 < l.count false := List.count_pos_iff.2 (List.mem_iff_getElem?.2 ⟨p, h⟩)
  simp [this]
  omega

theorem NodeRew.links_length {Q : Nat → Nat → Prop} {h : Heap} {p : Nat} {e e' : CallGraphNode}
    (n : NodeRew Q h p e e') : e'.Links.length = e.Links.length := by
  apply Nat.le_antisymm
  · by_contra hlt
    have hlt : e.Links.length < e'.Links.length := Nat.lt_of_not_le hlt
    rcases n.links e.Links.length with h1 | ⟨c, _, h1, _⟩
    · rw [List.getElem?_eq_getElem hlt, List.getElem?_eq_none (Nat.le_refl _)] at h1
      cases h1
    · rw [List.getElem?_eq_none (Nat.le_refl _)] at h1
      cases h1
  · by_contra hlt
    have hlt : e'.Links.length < e.Links.length := Nat.lt_of_not_le hlt
    rcases n.links e'.Links.length with h1 | ⟨c, _, _, _, h1, _⟩
    · rw [List.getElem?_eq_getElem hlt, List.getElem?_eq_none (Nat.le_refl _)] at h1
      cases h1
    · rw [List.getElem?_eq_none (Nat.le_refl _)] at h1
      cases h1

theorem GoodChild.good_mono {Q : Nat → Nat → Prop} {h1 hx hy : Heap} {c : Nat}
    (r : Rew Q hx hy) (g : GoodChild h1 hx c) : GoodChild h1 hy c :=
  fun path hp => g path (r.livePath hp)

theorem walkStep_spec {h0 h1 : Heap} {bound : Nat} {walk : Heap → Ptr → Except Err Heap}
    (ih : WalkSpec h0 bound walk) {p : Nat}
    (hpv : PtrsValid h1) (hp : (flags h1)[p]? = some true)
    (hcount : (flags h1).count false < bound)
    (hsub : ∀ a b, liveEdge h1 a b → liveEdge h0 a b)
    (hpath : ∀ v : Nat, (flags h1)[v]? = some true → Reach h0 v p)
    (hk : Heap) (rk : Rew (LoopQ h0 h1 p) h1 hk) (idx : Nat) :
    ∃ hk', walkStep walk p hk idx = Except.ok hk' ∧ Rew (LoopQ h0 h1 p) hk hk' ∧
      (∀ ek ek', hk[p]? = some ek → hk'[p]? = some ek' →
        ∀ j : Nat, j ≠ idx → ek'.Links[j]? = ek.Links[j]?) ∧
      (∀ ek' c, hk'[p]? = some ek' → ek'.Links[idx]? = some (Link.node c) →
        GoodChild h1 hk' c) := by
  have hflags : flags hk = flags h1 := rk.flags_eq
  have hplt : p < hk.length := by
    rw [rk.len]
    have := (List.getElem?_eq_some.1 hp).1
    simpa [flags] using this
  obtain ⟨e, he⟩ : ∃ e, hk[p]? = some e := ⟨_, List.getElem?_eq_getElem hplt⟩
  have hev : e.Visited = true := by
    have := flags_get he
    rw [hflags, hp] at this
    exact (Option.some.inj this).symm
  unfold walkStep
  simp only [he]
  cases hl : e.Links[idx]? with
  | none =>
    refine ⟨hk, rfl, Rew.rew_refl _ _, ?_, ?_⟩
    · intro ek ek' h1' h2' j _
      cases h1'; rw [he] at h2'; cases h2'; rfl
    · intro ek' c h1' h2'
      rw [he] at h1'; cases h1'
      rw [hl] at h2'; cases h2'
  | some lk =>
    cases lk with
    | str s =>
      refine ⟨hk, rfl, Rew.rew_refl _ _, ?_, ?_⟩
      · intro ek ek' h1' h2' j _
        cases h1'; rw [he] at h2'; cases h2'; rfl
      · intro ek' c h1' h2'
        rw [he] at h1'; cases h1'
        rw [hl] at h2'; cases h2'
    | node c =>
      have hmem : Link.node c ∈ e.Links := List.mem_iff_getElem?.2 ⟨idx, hl⟩
      have hclt : c < hk.length := rk.ptrsValid hpv p e c he hmem
      obtain ⟨ce, hce⟩ : ∃ ce, hk[c]? = some ce := ⟨_, List.getElem?_eq_getElem hclt⟩
      have hedge0 : liveEdge h0 p c := hsub p c (rk.liveEdge ⟨e, he, hmem⟩)
      simp only [hce]
      by_cases hcv : ce.Visited = true
      · -- the target is on the current path: the edge becomes a marker
        simp only [hcv, if_true]
        have hcf : (flags h1)[c]? = some true := by
          rw [← hflags, flags_get hce, hcv]
        have hQ : LoopQ h0 h1 p p c :=
          ⟨Or.inl rfl, Relation.ReflTransGen.refl, hpath c hcf, Or.inl hcf⟩
        refine ⟨_, rfl, Rew.set_link he hl hce hQ, ?_, ?_⟩
        · intro ek ek' h1' h2' j hj
          cases h1'
          rw [List.getElem?_set_self hplt] at h2'
          cases h2'
          simp only
          rw [List.getElem?_set_ne (Ne.symm hj)]
        · intro ek' c' h1' h2'
          rw [List.getElem?_set_self hplt] at h1'
          cases h1'
          simp only at h2'
          rw [List.getElem?_set_self (List.getElem?_eq_some.1 hl).1] at h2'
          cases h2'
      · -- the target is not on the current path: recurse
        have hcv' : ce.Visited = false := by simpa using hcv
        simp only [hcv', Bool.false_eq_true, if_false]
        have hcf : (flags hk)[c]? = some false := by rw [flags_get hce, hcv']
        obtain ⟨hk', hrun, hrew, hacyc⟩ := ih hk c (rk.ptrsValid hpv) hclt
          (by rw [hflags]; exact hcount)
          (fun a b hab => hsub a b (rk.liveEdge hab))
          (fun v hv => (hpath v (by rw [← hflags]; exact hv)).tail hedge0)
        have hrew' : Rew (LoopQ h0 h1 p) hk hk' := by
          refine hrew.rew_mono ?_
          rintro n c' ⟨h1', h2', h3', h4'⟩
          exact ⟨Or.inr (by rw [← hflags]; exact h1'),
            Relation.ReflTransGen.head hedge0 h2', h3',
            h4'.imp (fun x => by rw [← hflags]; exact x)
              (fun x => Relation.ReflTransGen.head hedge0 x)⟩
        have hlinks : ∀ ek', hk'[p]? = some ek' → ek'.Links = e.Links := by
          intro ek' hek'
          refine hrew.links_eq he hek' ?_
          rintro c' ⟨h1', _⟩
          rw [hflags, hp] at h1'
          cases h1'
        refine ⟨hk', hrun, hrew', ?_, ?_⟩
        · intro ek ek' h1' h2' j _
          cases h1'
          rw [hlinks ek' h2']
        · intro ek' c' h1' h2'
          rw [hlinks ek' h1', hl] at h2'
          cases h2'
          intro path hpth
          have := hacyc hcf path hpth
          rw [hflags] at this
          exact this

theorem walkLinks_spec {h0 h1 : Heap} {bound : Nat} {walk : Heap → Ptr → Except Err Heap}
    (ih : WalkSpec h0 bound walk) {p : Nat}
    (hpv : PtrsValid h1) (hp : (flags h1)[p]? = some true)
    (hcount : (flags h1).count false < bound)
    (hsub : ∀ a b, liveEdge h1 a b → liveEdge h0 a b)
    (hpath : ∀ v : Nat, (flags h1)[v]? = some true → Reach h0 v p) :
    ∀ (idxs : List Nat), idxs.Nodup → ∀ hk, Rew (LoopQ h0 h1 p) h1 hk →
      ∃ h2, walkLinks walk p idxs hk = Except.ok h2 ∧ Rew (LoopQ h0 h1 p) hk h2 ∧
        (∀ ek e2, hk[p]? = some ek → h2[p]? = some e2 →
          ∀ j : Nat, j ∉ idxs → e2.Links[j]? = ek.Links[j]?) ∧
        (∀ e2 (i : Nat) c, h2[p]? = some e2 → i ∈ idxs → e2.Links[i]? = some (Link.node c) →
          GoodChild h1 h2 c) := by
  intro idxs
  induction idxs with
  | nil =>
    intro _ hk _
    refine ⟨hk, rfl, Rew.rew_refl _ _, ?_, ?_⟩
    · intro ek e2 h1' h2' j _
      rw [h1'] at h2'; cases h2'; rfl
    · intro _ i _ _ hi
      cases hi
  | cons idx rest ihl =>
    intro hnd hk rk
    rw [List.nodup_cons] at hnd
    obtain ⟨hk', hstep, hrew, hsame, hgood⟩ :=
      walkStep_spec ih hpv hp hcount hsub hpath hk rk idx
    obtain ⟨h2, hrun, hrew2, hsame2, hgood2⟩ := ihl hnd.2 hk' (rk.rew_trans hrew)
    have hplt : p < hk.length := by
      rw [rk.len]
      have := (List.getElem?_eq_some.1 hp).1
      simpa [flags] using this
    obtain ⟨ek', hek'⟩ : ∃ ek', hk'[p]? = some ek' :=
      ⟨_, List.getElem?_eq_getElem (by rw [hrew.len]; exact hplt)⟩
    refine ⟨h2, ?_, hrew.rew_trans hrew2, ?_, ?_⟩
    · simp only [walkLinks, hstep]
      exact hrun
    · intro ek e2 h1' h2' j hj
      simp only [List.mem_cons, not_or] at hj
      rw [hsame2 ek' e2 hek' h2' j hj.2, hsame ek ek' h1' hek' j hj.1]
    · intro e2 i c h2' hi hl
      rcases List.mem_cons.1 hi with rfl | hi
      · rw [hsame2 ek' e2 hek' h2' i hnd.1] at hl
        exact (hgood ek' c hek' hl).good_mono hrew2
      · exact hgood2 e2 i c h2' hi hl

theorem liveEdge_set_visited {h : Heap} {p : Nat} {e : CallGraphNode} (he : h[p]? = some e)
    (b : Bool) (x y : Nat) :
    liveEdge (h.set p { e with Visited := b }) x y ↔ liveEdge h x y := by
  have hp : p < h.length := (List.getElem?_eq_some.1 he).1
  unfold liveEdge
  by_cases hx : x = p
  · subst hx
    rw [List.getElem?_set_self hp, he]
    constructor
    · rintro ⟨e', h1, h2⟩
      cases h1
      exact ⟨e, rfl, h2⟩
    · rintro ⟨e', h1, h2⟩
      cases h1
      exact ⟨_, rfl, h2⟩
  · rw [List.getElem?_set_ne (Ne.symm hx)]

theorem ptrsValid_set_visited {h : Heap} {p : Nat} {e : CallGraphNode} (he : h[p]? = some e)
    (b : Bool) (v : PtrsValid h) : PtrsValid (h.set p { e with Visited := b }) := by
  intro q eq c heq hmem
  rw [List.length_set]
  obtain ⟨e0, he0, hm⟩ := (liveEdge_set_visited he b q c).1 ⟨eq, heq, hmem⟩
  exact v q e0 c he0 hm

/-- Total correctness of `walkEntry` relative to the graph `h0` the walk started from:
with a budget above the number of unvisited nodes it returns, it only rewrites edges of
unvisited nodes that close a cycle of `h0`, and below an unvisited `p` no live path is
left that repeats a node or meets a visited one. -/
theorem walkEntry_spec (h0 : Heap) : ∀ fuel : Nat, WalkSpec h0 fuel (walkEntry fuel) := by
  intro fuel
  induction fuel with
  | zero =>
    intro h p _ _ hc
    exact absurd hc (Nat.not_lt_zero _)
  | succ fuel ih =>
    intro h p hpv hplt hcount hsub hpath
    obtain ⟨e, he⟩ : ∃ e, h[p]? = some e := ⟨_, List.getElem?_eq_getElem hplt⟩
    unfold walkEntry
    simp only [he]
    by_cases hv : e.Visited = true
    · simp only [hv, if_true]
      refine ⟨h, rfl, Rew.rew_refl _ _, ?_⟩
      intro hf
      rw [flags_get he, hv] at hf
      cases hf
    · have hv' : e.Visited = false := by simpa using hv
      simp only [hv', Bool.false_eq_true, if_false]
      have hpf : (flags h)[p]? = some false := by rw [flags_get he, hv']
      -- the heap in which `p` is marked
      have hf1 : flags (h.set p { e with Visited := true }) = (flags h).set p true :=
        flags_set_visited true
      have hp1 : (flags (h.set p { e with Visited := true }))[p]? = some true := by
        rw [hf1, List.getElem?_set_self (by simpa [flags] using hplt)]
      have hother : ∀ q : Nat, q ≠ p →
          (flags (h.set p { e with Visited := true }))[q]? = (flags h)[q]? := by
        intro q hq
        rw [hf1, List.getElem?_set_ne (Ne.symm hq)]
      have hcount1 : (flags (h.set p { e with Visited := true })).count false < fuel := by
        rw [hf1]
        have := count_false_set hpf
        omega
      have hsub1 : ∀ a b, liveEdge (h.set p { e with Visited := true }) a b →
          liveEdge h0 a b :=
        fun a b hab => hsub a b ((liveEdge_set_visited he true a b).1 hab)
      have hpath1 : ∀ v : Nat, (flags (h.set p { e with Visited := true }))[v]? = some true →
          Reach h0 v p := by
        intro v hv1
        by_cases hvp : v = p
        · subst hvp; exact Relation.ReflTransGen.refl
        · rw [hother v hvp] at hv1
          exact hpath v hv1
      obtain ⟨h2, hrun, hrew, _, hgood⟩ :=
        walkLinks_spec ih (ptrsValid_set_visited he true hpv) hp1 hcount1 hsub1 hpath1
          (List.range e.Links.length) (List.nodup_range _) _ (Rew.rew_refl _ _)
      have hp1' : p < (h.set p { e with Visited := true }).length := by
        rw [List.length_set]; exact hplt
      obtain ⟨e2, he2, n2⟩ := hrew.node p _ (List.getElem?_eq_getElem hp1')
      rw [List.getElem_set_self] at n2
      simp only [hrun, he2]
      refine ⟨_, rfl, ?_, ?_⟩
      · refine (Rew.unflag he hv' hrew he2).rew_mono ?_
        rintro n c ⟨h1, h2', h3, h4⟩
        have h4' : (flags h)[c]? = some true ∨ Reach h0 p c := by
          rcases h4 with h4 | h4
          · by_cases hcp : c = p
            · subst hcp; exact Or.inr Relation.ReflTransGen.refl
            · rw [hother c hcp] at h4; exact Or.inl h4
          · exact Or.inr h4
        rcases h1 with h1 | h1
        · subst h1; exact ⟨hpf, h2', h3, h4'⟩
        · have hnp : n ≠ p := by
            rintro rfl
            rw [hp1] at h1; cases h1
          rw [hother n hnp] at h1
          exact ⟨h1, h2', h3, h4'⟩
      · intro _ path hpth
        have hpth2 : LivePath h2 (p :: path) :=
          List.Chain'.imp (fun a b hab => (liveEdge_set_visited he2 false a b).1 hab) hpth
        cases path with
        | nil =>
          refine ⟨List.nodup_singleton _, ?_⟩
          intro q hq
          simp only [List.mem_singleton] at hq
          subst hq; exact hpf
        | cons c rest =>
          obtain ⟨hedge, htail⟩ := List.chain'_cons.1 hpth2
          obtain ⟨e2', he2', hmem⟩ := hedge
          rw [he2] at he2'
          cases he2'
          obtain ⟨i, hi⟩ := List.mem_iff_getElem?.1 hmem
          have hilt : i < e.Links.length := by
            have := (List.getElem?_eq_some.1 hi).1
            rw [n2.links_length] at this
            exact this
          obtain ⟨hnd, hall⟩ := hgood e2 i c he2 (List.mem_range.2 hilt) hi rest htail
          have hnot : p ∉ c :: rest := by
            intro hin
            have := hall p hin
            rw [hp1] at this
            cases this
          refine ⟨List.nodup_cons.2 ⟨hnot, hnd⟩, ?_⟩
          intro q hq
          rcases List.mem_cons.1 hq with rfl | hq
          · exact hpf
          · have hqp : q ≠ p := fun h' => hnot (h' ▸ hq)
            rw [← hother q hqp]
            exact hall q hq

/-! ## The recursion budget does not matter once it suffices -/

theorem walkStep_mono {walk walk' : Heap → Ptr → Except Err Heap}
    (hw : ∀ h c r, walk h c = Except.ok r → walk' h c = Except.ok r)
    (p : Ptr) (h : Heap) (idx : Nat) (r : Heap)
    (hr : walkStep walk p h idx = Except.ok r) : walkStep walk' p h idx = Except.ok r := by
  unfold walkStep at hr ⊢
  cases he : h[p]? with
  | none => rw [he] at hr; cases hr
  | some e =>
    rw [he] at hr
    simp only at hr ⊢
    cases hl : e.Links[idx]? with
    | none => rw [hl] at hr; exact hr
    | some lk =>
      rw [hl] at hr
      cases lk with
      | str s => exact hr
      | node c =>
        simp only at hr ⊢
        cases hc : h[c]? with
        | none => rw [hc] at hr; cases hr
        | some ce =>
          rw [hc] at hr
          simp only at hr ⊢
          by_cases hv : ce.Visited = true
          · rw [if_pos hv] at hr ⊢; exact hr
          · rw [if_neg hv] at hr ⊢; exact hw h c r hr

theorem walkLinks_mono {walk walk' : Heap → Ptr → Except Err Heap}
    (hw : ∀ h c r, walk h c = Except.ok r → walk' h c = Except.ok r)
    (p : Ptr) (idxs : List Nat) : ∀ (h r : Heap),
      walkLinks walk p idxs h = Except.ok r → walkLinks walk' p idxs h = Except.ok r := by
  induction idxs with
  | nil => intro h r hr; exact hr
  | cons idx rest ih =>
    intro h r hr
    unfold walkLinks at hr ⊢
    cases hs : walkStep walk p h idx with
    | error err => rw [hs] at hr; cases hr
    | ok h1 =>
      rw [hs] at hr
      rw [walkStep_mono hw p h idx h1 hs]
      exact ih h1 r hr

theorem walkEntry_succ (fuel : Nat) : ∀ (h : Heap) (p : Ptr) (r : Heap),
    walkEntry fuel h p = Except.ok r → walkEntry (fuel + 1) h p = Except.ok r := by
  induction fuel with
  | zero => intro h p r hr; cases hr
  | succ fuel ih =>
    intro h p r hr
    unfold walkEntry at hr ⊢
    cases he : h[p]? with
    | none => rw [he] at hr; cases hr
    | some e =>
      rw [he] at hr
      simp only at hr ⊢
      by_cases hv : e.Visited = true
      · rw [if_pos hv] at hr ⊢; exact hr
      · rw [if_neg hv] at hr ⊢
        cases hl : walkLinks (walkEntry fuel) p (List.range e.Links.length)
            (h.set p { e with Visited := true }) with
        | error err => rw [hl] at hr; cases hr
        | ok h1 =>
          rw [hl] at hr
          rw [walkLinks_mono ih p _ _ h1 hl]
          exact hr

theorem walkEntry_fuel_le {fuel fuel' : Nat} (hle : fuel ≤ fuel') (h : Heap) (p : Ptr)
    (r : Heap) (hr : walkEntry fuel h p = Except.ok r) : walkEntry fuel' h p = Except.ok r := by
  induction hle with
  | refl => exact hr
  | step _ ih => exact walkEntry_succ _ h p r ih

/-! ## Walking from a heap in which no node is marked -/

theorem NoneVisited.flags_ne {h : Heap} (hn : NoneVisited h) (q : Nat) :
    (flags h)[q]? ≠ some true := by
  intro hq
  simp only [ParseProf.flags, List.getElem?_map] at hq
  cases he : h[q]? with
  | none => rw [he] at hq; cases hq
  | some e =>
    rw [he] at hq
    have := hn q e he
    simp [this] at hq

theorem Rew.noneVisited {Q : Nat → Nat → Prop} {h h' : Heap} (r : Rew Q h h')
    (hn : NoneVisited h) : NoneVisited h' := by
  intro p e' he'
  obtain ⟨e, he, n⟩ := r.node' he'
  rw [n.visited]
  exact hn p e he

theorem count_false_le (h : Heap) : (flags h).count false ≤ h.length := by
  have := List.count_le_length false (flags h)
  simpa [flags] using this

/-- A single top-level call of `walkEntry`, for any budget above the number of nodes. -/
theorem walkEntry_top (h0 h : Heap) (p : Nat) (hsub : ∀ a b, liveEdge h a b → liveEdge h0 a b)
    (hpv : PtrsValid h) (hn : NoneVisited h) (hp : p < h.length) :
    ∃ h', (∀ fuel, h.length < fuel → walkEntry fuel h p = Except.ok h') ∧
      Rew (fun n c => Reach h0 p c ∧ Reach h0 c n) h h' ∧
      (∀ path, LivePath h' (p :: path) → (p :: path).Nodup) := by
  obtain ⟨h', hrun, hrew, hac⟩ := walkEntry_spec h0 (h.length + 1) h p hpv hp
    (Nat.lt_succ_of_le (count_false_le h)) hsub
    (fun v hv => absurd hv (hn.flags_ne v))
  obtain ⟨e, he⟩ : ∃ e, h[p]? = some e := ⟨_, List.getElem?_eq_getElem hp⟩
  have hpf : (flags h)[p]? = some false := by rw [flags_get he, hn p e he]
  refine ⟨h', ?_, hrew.rew_mono fun n c hq => ⟨hq.2.2.2.resolve_left (hn.flags_ne c), hq.2.2.1⟩,
    fun path hpth => (hac hpf path hpth).1⟩
  intro fuel hf
  exact walkEntry_fuel_le (Nat.succ_le_of_lt hf) h p h' hrun

/-- The loop of `formatRes` over the root list. -/
theorem walkRoots_spec (h0 : Heap) (fuel : Nat) (roots : List Link) :
    ∀ (h : Heap), h.length < fuel → (∀ a b, liveEdge h a b → liveEdge h0 a b) →
      PtrsValid h → NoneVisited h →
      (∀ l ∈ roots, ∃ p : Nat, l = Link.node p ∧ p < h.length) →
      ∃ h', walkRoots fuel roots h = Except.ok h' ∧ Rew (CycleFrom h0 roots) h h' ∧
        (∀ p : Nat, Link.node p ∈ roots → ∀ path, LivePath h' (p :: path) →
          (p :: path).Nodup) := by
  induction roots with
  | nil =>
    intro h _ _ _ _ _
    exact ⟨h, rfl, Rew.rew_refl _ _, fun p hp => absurd hp (List.not_mem_nil _)⟩
  | cons l rest ih =>
    intro h hfuel hsub hpv hn hvalid
    obtain ⟨p, rfl, hp⟩ := hvalid l (List.mem_cons_self _ _)
    obtain ⟨h1, hrun, hrew, hac⟩ := walkEntry_top h0 h p hsub hpv hn hp
    obtain ⟨h', hrun', hrew', hac'⟩ := ih h1 (by rw [hrew.len]; exact hfuel)
      (fun a b hab => hsub a b (hrew.liveEdge hab)) (hrew.ptrsValid hpv) (hrew.noneVisited hn)
      (fun l hl => by
        rw [hrew.len]
        exact hvalid l (List.mem_cons_of_mem _ hl))
    refine ⟨h', ?_, ?_, ?_⟩
    · simp only [walkRoots, hrun fuel hfuel]
      exact hrun'
    · refine Rew.rew_trans (hrew.rew_mono ?_) (hrew'.rew_mono ?_)
      · rintro n c ⟨h1', h2'⟩
        exact ⟨p, List.mem_cons_self _ _, h1', h2'⟩
      · rintro n c ⟨r, hr, h1', h2'⟩
        exact ⟨r, List.mem_cons_of_mem _ hr, h1', h2'⟩
    · intro q hq path hpth
      rcases List.mem_cons.1 hq with hq | hq
      · cases hq
        exact hac path (hrew'.livePath hpth)
      · exact hac' q hq path hpth

/-! ## The pipeline on scanned input -/

/-- After scanning, `sortByFrequences` succeeds, changes nothing but `Links`, and leaves
every node with sorted `Links`. -/
theorem sortByFrequences_scan (R : Runtime) (lines : List String) :
    ∃ h, sortByFrequences R (scanLines lines).heap (scanLines lines).res = Except.ok h ∧
      SameButLinks (scanLines lines).heap h ∧
      ∀ (p : Nat) e, h[p]? = some e → LinksSorted h e := by
  have inv := scanLines_inv lines
  have hvalid : ∀ kv ∈ R.rangeMap MapId.registry (scanLines lines).res.MapNameToNode,
      kv.2 < (scanLines lines).heap.length := by
    intro kv hkv
    have hmem := (R.rangeMap_perm _ _).mem_iff.1 hkv
    obtain ⟨e, he, _⟩ := inv.reg_sound kv.1 kv.2 hmem
    exact (List.getElem?_eq_some.1 he).1
  have hmaps : ∀ (p : Nat) e, (scanLines lines).heap[p]? = some e → ∀ kc ∈ e.Map,
      kc.2 < (scanLines lines).heap.length := by
    intro p e he kc hkc
    obtain ⟨e', he', _⟩ := inv.reg_sound kc.1 kc.2 (inv.assoc_sub p e kc.1 kc.2 he hkc)
    exact (List.getElem?_eq_some.1 he').1
  obtain ⟨h, hrun, hsame, _, hsorted⟩ := sortEntries_spec R _ _ hvalid hmaps
  refine ⟨h, hrun, hsame, ?_⟩
  intro p e he
  obtain ⟨e0, he0, _⟩ := hsame.symm.node he
  have hmem := (R.rangeMap_perm MapId.registry _).mem_iff.2 (inv.reg_complete p e0 he0)
  obtain ⟨e', he', hs⟩ := hsorted _ hmem
  rw [he] at he'
  cases he'
  exact hs

theorem sorted_noneVisited {lines : List String} {h : Heap}
    (hsame : SameButLinks (scanLines lines).heap h) : NoneVisited h := by
  intro p e he
  obtain ⟨e0, he0, heq⟩ := hsame.symm.node he
  rw [← (eraseLinks_eq heq).2.2.2]
  exact ((scanLines_inv lines).fresh p e0 he0).2

theorem sorted_ptrsValid {lines : List String} {h : Heap}
    (hsame : SameButLinks (scanLines lines).heap h)
    (hsorted : ∀ (p : Nat) e, h[p]? = some e → LinksSorted h e) : PtrsValid h := by
  intro p e c he hmem
  have inv := scanLines_inv lines
  obtain ⟨e0, he0, heq⟩ := hsame.symm.node he
  have hm := (hsorted p e he).1.mem_iff.1 hmem
  obtain ⟨kv, hkv, hc⟩ := List.mem_map.1 hm
  cases hc
  rw [← (eraseLinks_eq heq).2.2.1] at hkv
  obtain ⟨e', he', _⟩ := inv.reg_sound kv.1 kv.2 (inv.assoc_sub p e0 kv.1 kv.2 he0 hkv)
  rw [hsame.same_length]
  exact (List.getElem?_eq_some.1 he').1

/-- On a scanned and sorted heap `formatRes` sorts the roots and walks every one of them:
the walks return, rewrite only edges that close a cycle, and leave no live path from a
root that repeats a node. -/
theorem linearize_scan (R : Runtime) (lines : List String) (h : Heap)
    (hsame : SameButLinks (scanLines lines).heap h)
    (hsorted : ∀ (p : Nat) e, h[p]? = some e → LinksSorted h e) :
    ∃ graphList h', linearize R h (scanLines lines).res = Except.ok (graphList, h') ∧
      graphList.Perm ((scanLines lines).res.TopLevelNode.map fun kv => Link.node kv.2) ∧
      graphList.Pairwise (CountGE h) ∧
      Rew (CycleFrom h graphList) h h' ∧
      ∀ p : Nat, Link.node p ∈ graphList → ∀ path, LivePath h' (p :: path) →
        (p :: path).Nodup := by
  have inv := scanLines_inv lines
  have hrootvalid : ∀ kv ∈ (scanLines lines).res.TopLevelNode, kv.2 < h.length := by
    intro kv hkv
    obtain ⟨e, he, _⟩ := inv.reg_sound kv.1 kv.2 (inv.roots_sub kv.1 kv.2 hkv)
    rw [hsame.same_length]
    exact (List.getElem?_eq_some.1 he).1
  have hv : ∀ l ∈ mapToList (R.rangeMap MapId.roots) (scanLines lines).res.TopLevelNode,
      (linkCount h l).isSome = true := by
    intro l hl
    obtain ⟨kv, hkv, rfl⟩ := List.mem_map.1 hl
    have := hrootvalid kv ((R.rangeMap_perm _ _).mem_iff.1 hkv)
    simp [linkCount, List.getElem?_eq_getElem this]
  obtain ⟨graphList, hsort, hperm, hpw⟩ := sortVec_spec R h _ hv
  have hperm' : graphList.Perm
      ((scanLines lines).res.TopLevelNode.map fun kv => Link.node kv.2) :=
    hperm.trans ((R.rangeMap_perm _ _).map _)
  have hvalid : ∀ l ∈ graphList, ∃ p : Nat, l = Link.node p ∧ p < h.length := by
    intro l hl
    obtain ⟨kv, hkv, rfl⟩ := List.mem_map.1 (hperm'.mem_iff.1 hl)
    exact ⟨kv.2, rfl, hrootvalid kv hkv⟩
  obtain ⟨h', hrun, hrew, hac⟩ := walkRoots_spec h (h.length + 1) graphList h
    (Nat.lt_succ_self _) (fun _ _ hab => hab) (sorted_ptrsValid hsame hsorted)
    (sorted_noneVisited hsame) hvalid
  refine ⟨graphList, h', ?_, hperm', hpw, hrew, hac⟩
  simp only [linearize, hsort, hrun]

/-! ## Claims -/

/-- C1: after scanning, the keys of `MapNameToNode` are distinct and are exactly the frame
lines of the input, and the node stored under a key carries that key as `Name` and the
number of input lines equal to the key as `Count`. -/
theorem scanLines_registry_counts (lines : List String) :
    ((scanLines lines).res.MapNameToNode.map Prod.fst).Nodup ∧
    (∀ k, k ∈ (scanLines lines).res.MapNameToNode.map Prod.fst ↔
      (k ∈ lines ∧ isSeparator k = false)) ∧
    (∀ k p, List.lookup k (scanLines lines).res.MapNameToNode = some p →
      ∃ e, (scanLines lines).heap[p]? = some e ∧ e.Name = k ∧
        e.Count = (lines.count k : Int)) := by
  have inv := scanLines_inv lines
  refine ⟨inv.reg_nodup, inv.reg_keys, ?_⟩
  intro k p hk
  obtain ⟨e, he, hn⟩ := inv.reg_sound k p (GoMap.mem_of_lookup hk)
  exact ⟨e, he, hn, by rw [inv.count_eq p e he, hn]⟩

/-- C2: for every input and every runtime, sorting and the walks of `formatRes` return, the
root list holds every entry of the Roots map, and in the heap after the walks no path of
live references that starts at a root visits a node twice. -/
theorem linearize_acyclic (R : Runtime) (lines : List String) :
    ∃ h graphList h',
      sortByFrequences R (scanLines lines).heap (scanLines lines).res = Except.ok h ∧
      linearize R h (scanLines lines).res = Except.ok (graphList, h') ∧
      (∀ name root, (name, root) ∈ (scanLines lines).res.TopLevelNode →
        Link.node root ∈ graphList) ∧
      ∀ root : Nat, Link.node root ∈ graphList → ∀ path : List Nat,
        LivePath h' (root :: path) → (root :: path).Nodup := by
  obtain ⟨h, hsort, hsame, hsorted⟩ := sortByFrequences_scan R lines
  obtain ⟨graphList, h', hlin, hperm, _, _, hac⟩ := linearize_scan R lines h hsame hsorted
  refine ⟨h, graphList, h', hsort, hlin, ?_, hac⟩
  intro name root hmem
  exact hperm.mem_iff.2 (List.mem_map.2 ⟨(name, root), hmem, rfl⟩)

/-- C3: on every finite graph (all live references point to allocated nodes) in which no
node is marked `Visited`, `walkEntry` returns for every recursion budget above the number
of nodes, with one result; and for every input the walks of all roots in `formatRes`
return. -/
theorem walkEntry_terminates (h : Heap) (p : Nat) (hpv : PtrsValid h) (hn : NoneVisited h)
    (hp : p < h.length) :
    (∃ h', ∀ fuel, h.length < fuel → walkEntry fuel h p = Except.ok h') ∧
    (∀ (R : Runtime) (lines : List String), ∃ hs r,
      sortByFrequences R (scanLines lines).heap (scanLines lines).res = Except.ok hs ∧
      linearize R hs (scanLines lines).res = Except.ok r) := by
  constructor
  · obtain ⟨h', hrun, _⟩ := walkEntry_top h h p (fun _ _ hab => hab) hpv hn hp
    exact ⟨h', hrun⟩
  · intro R lines
    obtain ⟨hs, hsort, hsame, hsorted⟩ := sortByFrequences_scan R lines
    obtain ⟨graphList, h', hlin, _⟩ := linearize_scan R lines hs hsame hsorted
    exact ⟨hs, (graphList, h'), hsort, hlin⟩

theorem cyclicHeap_ptrsValid : PtrsValid cyclicHeap := by
  intro p e c he hm
  have hp : p < 2 := (List.getElem?_eq_some.1 he).1
  interval_cases p
  · simp [cyclicHeap] at he
    subst he
    simp at hm
    rcases hm with rfl | rfl <;> simp [cyclicHeap]
  · simp [cyclicHeap] at he
    subst he
    simp at hm
    subst hm
    simp [cyclicHeap]

theorem cyclicHeap_noneVisited : NoneVisited cyclicHeap := by
  intro p e he
  have hp : p < 2 := (List.getElem?_eq_some.1 he).1
  interval_cases p <;> simp [cyclicHeap] at he <;> subst he <;> rfl

/-- Witness for C3: the cyclic two-node graph meets the hypotheses, and its walk returns. -/
theorem walkEntry_terminates_witness :
    PtrsValid cyclicHeap ∧ NoneVisited cyclicHeap ∧ 0 < cyclicHeap.length ∧
    ((∃ h', ∀ fuel, cyclicHeap.length < fuel → walkEntry fuel cyclicHeap 0 = Except.ok h') ∧
     (∀ (R : Runtime) (lines : List String), ∃ hs r,
       sortByFrequences R (scanLines lines).heap (scanLines lines).res = Except.ok hs ∧
       linearize R hs (scanLines lines).res = Except.ok r)) :=
  ⟨cyclicHeap_ptrsValid, cyclicHeap_noneVisited, by decide,
    walkEntry_terminates cyclicHeap 0 cyclicHeap_ptrsValid cyclicHeap_noneVisited (by decide)⟩

/-- C4 (the code fails): `writeEntry` on a back-reference marker dereferences the nil
`valgraph` and panics, whatever the marker's text; the whole program panics on the input
lines `#A`, `#B`, `#A` and an empty line, where a marker is rendered. -/
theorem writeEntry_marker_nil_deref :
    (∀ (fuel : Nat) (h : Heap) (w : Writer) (s : String),
      writeEntry (fuel + 1) h w (Link.str s) = Except.error Err.nilDeref) ∧
    pipeline stdRuntime ["#A", "#B", "#A", ""] = Except.error Err.nilDeref := by
  refine ⟨fun fuel h w s => rfl, by decide⟩

/-- C5 (counterexample): on the traces A,B / B,A / A the roots are A (3 calls) and B
(2 calls). The walk of A turns the edge from B to A into a marker; below the root B the
path that consists of B alone ends at that marker, and A is not on it. -/
theorem marker_without_ancestor :
    ∃ h graphList h',
      sortByFrequences stdRuntime (scanLines ["#A", "#B", "", "#B", "#A", "", "#A", ""]).heap
        (scanLines ["#A", "#B", "", "#B", "#A", "", "#A", ""]).res = Except.ok h ∧
      linearize stdRuntime h (scanLines ["#A", "#B", "", "#B", "#A", "", "#A", ""]).res =
        Except.ok (graphList, h') ∧
      Link.node 1 ∈ graphList ∧ ¬ MarkersNameAncestors h' 1 := by
  refine ⟨[{ Count := 3, Name := "#A", Links := [Link.node 1], Map := [("#B", 1)],
              Visited := false },
           { Count := 2, Name := "#B", Links := [Link.node 0], Map := [("#A", 0)],
              Visited := false }],
    [Link.node 0, Link.node 1],
    [{ Count := 3, Name := "#A", Links := [Link.node 1], Map := [("#B", 1)],
        Visited := false },
     { Count := 2, Name := "#B", Links := [Link.str "Backlink: #A"], Map := [("#A", 0)],
        Visited := false }], by decide, by decide, by decide, ?_⟩
  intro hm
  obtain ⟨q, hq, eq, h1, h2⟩ := hm [] 1 _ "#A" (List.chain'_singleton _) rfl rfl (by decide)
  simp only [List.mem_singleton] at hq
  subst hq
  simp only [List.getElem?_cons_succ, List.getElem?_cons_zero, Option.some.injEq] at h1
  subst h1
  revert h2
  decide

/-- C5 (amended): after linearization every marker stands where the sorted graph held a
live reference to the node it names, and in the sorted graph that node lies on a path
from a root to the node holding the marker. -/
theorem markers_close_cycles (R : Runtime) (lines : List String) :
    ∃ h graphList h',
      sortByFrequences R (scanLines lines).heap (scanLines lines).res = Except.ok h ∧
      linearize R h (scanLines lines).res = Except.ok (graphList, h') ∧
      ∀ (p : Nat) (e' : CallGraphNode) (i : Nat) (s : String),
        h'[p]? = some e' → e'.Links[i]? = some (Link.str s) →
        ∃ e c ce r, h[p]? = some e ∧ e.Links[i]? = some (Link.node c) ∧ h[c]? = some ce ∧
          s = "Backlink: " ++ ce.Name ∧ Link.node r ∈ graphList ∧ Reach h r c ∧
          Reach h c p := by
  obtain ⟨h, hsort, hsame, hsorted⟩ := sortByFrequences_scan R lines
  obtain ⟨graphList, h', hlin, _, _, hrew, _⟩ := linearize_scan R lines h hsame hsorted
  refine ⟨h, graphList, h', hsort, hlin, ?_⟩
  intro p e' i s he' hs
  obtain ⟨e, he, n⟩ := hrew.node' he'
  rcases n.links i with h1 | ⟨c, ce, h1, h2, h3, r, hr, hrc, hcp⟩
  · rw [hs] at h1
    have hmem : Link.str s ∈ e.Links := List.mem_iff_getElem?.2 ⟨i, h1.symm⟩
    obtain ⟨kv, _, hkv⟩ := List.mem_map.1 ((hsorted p e he).1.mem_iff.1 hmem)
    cases hkv
  · rw [hs] at h3
    exact ⟨e, c, ce, r, he, h1, h2, by injection h3 with h3; injection h3, hr, hrc, hcp⟩

/-- C6: a name is a key of the Roots map after scanning exactly when it is a frame line
that is immediately followed by a separator line somewhere in the input. -/
theorem scanLines_roots_iff (lines : List String) (N : String) :
    N ∈ (scanLines lines).res.TopLevelNode.map Prod.fst ↔
      (isSeparator N = false ∧ ∃ sep, Adjacent lines N sep ∧ isSeparator sep = true) :=
  (scanLines_inv lines).root_keys N

/-- C7 (counterexample): for the text of the scenario the keys of the Roots map are not
exactly B and C. -/
theorem two_traces_roots_not_B_C :
    ¬ (∀ k, k ∈ (scanLines (textLines "#A\n#B\n\n#A\n#C\n")).res.TopLevelNode.map Prod.fst ↔
      (k = "#B" ∨ k = "#C")) := by
  intro h
  have := (h "#C").2 (Or.inr rfl)
  revert this
  decide

/-- C7 (amended): the text of the scenario is read as the lines A, B, empty, A, C; scanning
yields the counts A:2, B:1, C:1, a Roots map whose only key is B, and the associations
of B and of C both hold A. -/
theorem scenario_two_traces :
    textLines "#A\n#B\n\n#A\n#C\n" = ["#A", "#B", "", "#A", "#C"] ∧
    (scanLines (textLines "#A\n#B\n\n#A\n#C\n")).res.MapNameToNode =
      [("#A", 0), ("#B", 1), ("#C", 2)] ∧
    (scanLines (textLines "#A\n#B\n\n#A\n#C\n")).heap.map (fun e => (e.Name, e.Count)) =
      [("#A", 2), ("#B", 1), ("#C", 1)] ∧
    (scanLines (textLines "#A\n#B\n\n#A\n#C\n")).res.TopLevelNode = [("#B", 1)] ∧
    (scanLines (textLines "#A\n#B\n\n#A\n#C\n")).heap.map (fun e => e.Map) =
      [[], [("#A", 0)], [("#A", 0)]] := by
  decide

/-- The container wrapper fits into the empty buffer and stays there. -/
theorem wrapper_buffered :
    NewWriter.WriteString (utf8 "<html><body>\n") =
      { file := [], buf := utf8 "<html><body>\n" } := by
  decide

/-- With an empty Roots map the root list is empty and the loop over it changes nothing. -/
theorem linearize_no_roots (R : Runtime) (h : Heap) (res : Results)
    (hroots : res.TopLevelNode = []) : linearize R h res = Except.ok ([], h) := by
  have hnil : R.rangeMap MapId.roots [] = [] := List.Perm.eq_nil (R.rangeMap_perm _ _)
  simp only [linearize, hroots, mapToList, hnil, List.map_nil, sortVec, List.length_nil,
    Nat.ofNat_pos, if_true, walkRoots]

/-- With an empty Roots map the program hands the container wrapper to the writer and
nothing else; the wrapper stays in the buffer. -/
theorem pipeline_no_roots (R : Runtime) (lines : List String)
    (hroots : (scanLines lines).res.TopLevelNode = []) :
    pipeline R lines = Except.ok { file := [], buf := utf8 "<html><body>\n" } := by
  obtain ⟨h, hsort, _, _⟩ := sortByFrequences_scan R lines
  simp only [pipeline, hsort, formatRes, linearize_no_roots R h _ hroots, writeToHtml,
    writeEntries, wrapper_buffered]

/-- C8 (counterexample): for the text of the scenario the Roots map is empty and the program
returns; neither the document in the output file nor the whole text handed to the writer
holds a back-reference marker. -/
theorem revisit_output_has_no_marker :
    (scanLines (textLines "#A\n#B\n#A\n")).res.TopLevelNode = [] ∧
    ∃ w, pipeline stdRuntime (textLines "#A\n#B\n#A\n") = Except.ok w ∧
      ¬ List.IsInfix (utf8 "Backlink") w.file ∧ ¬ List.IsInfix (utf8 "Backlink") w.text :=
  ⟨by decide, { file := [], buf := utf8 "<html><body>\n" }, by decide, by decide, by decide⟩

/-- C8 (amended): for the text of the scenario, read as the lines A, B, A with no separator
after them, the Roots map is empty and, for every runtime, the whole pipeline returns
without error: sorting returns, the root list is empty, so the loop over it walks no node
and leaves every edge as sorting made it, a reference to a node, and the writer is handed
the container wrapper and nothing else. -/
theorem scenario_revisit (R : Runtime) :
    textLines "#A\n#B\n#A\n" = ["#A", "#B", "#A"] ∧
    (scanLines (textLines "#A\n#B\n#A\n")).res.TopLevelNode = [] ∧
    (∃ h, sortByFrequences R (scanLines (textLines "#A\n#B\n#A\n")).heap
        (scanLines (textLines "#A\n#B\n#A\n")).res = Except.ok h ∧
      linearize R h (scanLines (textLines "#A\n#B\n#A\n")).res = Except.ok ([], h) ∧
      ∀ e ∈ h, ∀ l ∈ e.Links, ∃ c : Nat, l = Link.node c) ∧
    ∃ w, pipeline R (textLines "#A\n#B\n#A\n") = Except.ok w ∧
      w.text = utf8 "<html><body>\n" := by
  obtain ⟨h, hsort, _, hsorted⟩ := sortByFrequences_scan R (textLines "#A\n#B\n#A\n")
  refine ⟨by decide, by decide, ⟨h, hsort, linearize_no_roots R h _ (by decide), ?_⟩,
    _, pipeline_no_roots R _ (by decide), by decide⟩
  intro e he l hl
  obtain ⟨p, hp⟩ := List.mem_iff_getElem?.1 he
  have hmem := (hsorted p e hp).1.mem_iff.1 hl
  obtain ⟨kv, _, rfl⟩ := List.mem_map.1 hmem
  exact ⟨kv.2, rfl⟩

/-- C9: `sortByFrequences` returns; afterwards the `Links` of every node of the Registry
are a permutation of the nodes in its associations map, which is the map the scanner
built, with non-increasing `Count`; and the root list of `formatRes` is a permutation of
the values of the Roots map with non-increasing `Count`. -/
theorem sortByFrequences_links_sorted (R : Runtime) (lines : List String) :
    ∃ h,
      sortByFrequences R (scanLines lines).heap (scanLines lines).res = Except.ok h ∧
      (∀ k p, List.lookup k (scanLines lines).res.MapNameToNode = some p →
        ∃ e0 e, (scanLines lines).heap[p]? = some e0 ∧ h[p]? = some e ∧
          e.Map = e0.Map ∧ e.Count = e0.Count ∧
          e.Links.Perm (e.Map.map fun kv => Link.node kv.2) ∧
          e.Links.Pairwise (CountGE h)) ∧
      ∃ graphList h', linearize R h (scanLines lines).res = Except.ok (graphList, h') ∧
        graphList.Perm ((scanLines lines).res.TopLevelNode.map fun kv => Link.node kv.2) ∧
        graphList.Pairwise (CountGE h) := by
  obtain ⟨h, hsort, hsame, hsorted⟩ := sortByFrequences_scan R lines
  obtain ⟨graphList, h', hlin, hperm, hpw, _, _⟩ := linearize_scan R lines h hsame hsorted
  refine ⟨h, hsort, ?_, graphList, h', hlin, hperm, hpw⟩
  intro k p hk
  obtain ⟨e0, he0, _⟩ := (scanLines_inv lines).reg_sound k p (GoMap.mem_of_lookup hk)
  obtain ⟨e, he, heq⟩ := hsame.node he0
  have := eraseLinks_eq heq
  exact ⟨e0, e, he0, he, this.2.2.1, this.1, (hsorted p e he).1, (hsorted p e he).2⟩

/-- C10 (counterexample): in the lines A, B, empty, B, empty the second trace is the single
frame B between two separators, and the Root B has the association A and the child A. -/
theorem shared_root_keeps_associations :
    ∃ h,
      sortByFrequences stdRuntime (scanLines ["#A", "#B", "", "#B", ""]).heap
        (scanLines ["#A", "#B", "", "#B", ""]).res = Except.ok h ∧
      isSeparator "" = true ∧ isSeparator "#B" = false ∧
      ["#A", "#B", "", "#B", ""][2]? = some "" ∧ ["#A", "#B", "", "#B", ""][3]? = some "#B" ∧
      ["#A", "#B", "", "#B", ""][4]? = some "" ∧
      List.lookup "#B" (scanLines ["#A", "#B", "", "#B", ""]).res.TopLevelNode = some 1 ∧
      ((scanLines ["#A", "#B", "", "#B", ""]).heap[1]?).map (fun e => e.Map) =
        some [("#A", 0)] ∧
      (h[1]?).map (fun e => e.Links) = some [Link.node 0] := by
  refine ⟨[{ Count := 1, Name := "#A", Links := [], Map := [], Visited := false },
           { Count := 2, Name := "#B", Links := [Link.node 0], Map := [("#A", 0)],
              Visited := false }], by decide, by decide, by decide, by decide, by decide,
    by decide, by decide, by decide, by decide⟩

/-- C10 (amended): when a frame line `N` is followed by a separator and no line equal to
`N` is immediately preceded by a frame line, so that every trace through `N` is the single
frame `N`, then `N` is a Root whose associations are empty and whose `Links` are empty
after sorting. -/
theorem single_frame_root (R : Runtime) (lines : List String) (N : String)
    (hN : isSeparator N = false)
    (hsep : ∃ sep, Adjacent lines N sep ∧ isSeparator sep = true)
    (hnone : ∀ Y, Adjacent lines Y N → isSeparator Y = true) :
    ∃ p h e,
      List.lookup N (scanLines lines).res.TopLevelNode = some p ∧
      sortByFrequences R (scanLines lines).heap (scanLines lines).res = Except.ok h ∧
      h[p]? = some e ∧ e.Name = N ∧ e.Map = [] ∧ e.Links = [] := by
  have inv := scanLines_inv lines
  obtain ⟨⟨k, p⟩, hmem, hk⟩ := List.mem_map.1 ((inv.root_keys N).2 ⟨hN, hsep⟩)
  simp only at hk
  subst hk
  obtain ⟨e0, he0, hname⟩ := inv.reg_sound _ _ (inv.roots_sub _ _ hmem)
  have hmap : e0.Map = [] := by
    apply List.eq_nil_iff_forall_not_mem.2
    intro kv hkv
    have := (inv.assoc_keys p e0 kv.1 he0).1 (List.mem_map.2 ⟨kv, hkv, rfl⟩)
    rw [hname] at this
    rw [hnone kv.1 this.2] at this
    exact absurd this.1 (by simp)
  obtain ⟨h, hsort, hsame, hsorted⟩ := sortByFrequences_scan R lines
  obtain ⟨e, he, heq⟩ := hsame.node he0
  have hf := eraseLinks_eq heq
  have hm : e.Map = [] := by rw [hf.2.2.1, hmap]
  refine ⟨p, h, e, GoMap.lookup_of_mem inv.roots_nodup hmem, hsort, he,
    by rw [hf.2.1, hname], hm, ?_⟩
  have := (hsorted p e he).1
  rw [hm] at this
  exact List.Perm.eq_nil this

/-- Witness for C10: in the lines A, B, empty, C, empty the frame C meets the hypotheses
and is a Root without associations and without children. -/
theorem single_frame_root_witness :
    isSeparator "#C" = false ∧
    (∃ sep, Adjacent ["#A", "#B", "", "#C", ""] "#C" sep ∧ isSeparator sep = true) ∧
    (∀ Y, Adjacent ["#A", "#B", "", "#C", ""] Y "#C" → isSeparator Y = true) ∧
    ∃ p h e,
      List.lookup "#C" (scanLines ["#A", "#B", "", "#C", ""]).res.TopLevelNode = some p ∧
      sortByFrequences stdRuntime (scanLines ["#A", "#B", "", "#C", ""]).heap
        (scanLines ["#A", "#B", "", "#C", ""]).res = Except.ok h ∧
      h[p]? = some e ∧ e.Name = "#C" ∧ e.Map = [] ∧ e.Links = [] :=
  have hsep : ∃ sep, Adjacent ["#A", "#B", "", "#C", ""] "#C" sep ∧ isSeparator sep = true :=
    ⟨"", ⟨3, by decide, by decide⟩, by decide⟩
  have hnone : ∀ Y, Adjacent ["#A", "#B", "", "#C", ""] Y "#C" → isSeparator Y = true := by
    rintro Y ⟨i, h1, h2⟩
    have hi : i + 1 < 5 := (List.getElem?_eq_some.1 h2).1
    have hi4 : i < 4 := by omega
    interval_cases i
    · exact absurd h2 (by decide)
    · exact absurd h2 (by decide)
    · simp at h1; subst h1; decide
    · exact absurd h2 (by decide)
  ⟨by decide, hsep, hnone,
    single_frame_root stdRuntime ["#A", "#B", "", "#C", ""] "#C" (by decide) hsep hnone⟩

/-- C13 (the code fails): for the empty input the scanner allocates nothing and leaves the
Registry and the Roots map empty, and for every runtime the whole pipeline returns without
error. The container wrapper is handed to the writer and stays in its buffer, which the
program never flushes: the document in the output file holds no byte. -/
theorem empty_input_leaves_file_empty (R : Runtime) :
    textLines "" = [] ∧ (scanLines []).heap = [] ∧
    (scanLines []).res.MapNameToNode = [] ∧ (scanLines []).res.TopLevelNode = [] ∧
    pipeline R [] = Except.ok { file := [], buf := utf8 "<html><body>\n" } :=
  ⟨by decide, rfl, rfl, rfl, pipeline_no_roots R [] rfl⟩

/-- C14: after scanning, the node registered for `X` has the key `Y` in its associations
exactly when `X` and `Y` are frame lines and a line equal to `Y` is immediately followed by
a line equal to `X`; the entry stored under `Y` is then the node registered for `Y`. -/
theorem scanLines_assoc_iff (lines : List String) (X Y : String) :
    ((∃ p e q, List.lookup X (scanLines lines).res.MapNameToNode = some p ∧
        (scanLines lines).heap[p]? = some e ∧ List.lookup Y e.Map = some q) ↔
      (isSeparator Y = false ∧ isSeparator X = false ∧ Adjacent lines Y X)) ∧
    (∀ p e q, List.lookup X (scanLines lines).res.MapNameToNode = some p →
      (scanLines lines).heap[p]? = some e → List.lookup Y e.Map = some q →
      List.lookup Y (scanLines lines).res.MapNameToNode = some q) := by
  have inv := scanLines_inv lines
  constructor
  · constructor
    · rintro ⟨p, e, q, hp, he, hq⟩
      obtain ⟨e', he', hname⟩ := inv.reg_sound X p (GoMap.mem_of_lookup hp)
      rw [he] at he'
      cases he'
      have hkey : Y ∈ e.Map.map Prod.fst :=
        List.mem_map.2 ⟨(Y, q), GoMap.mem_of_lookup hq, rfl⟩
      have h1 := (inv.assoc_keys p e Y he).1 hkey
      rw [hname] at h1
      have h2 := inv.name_frame he
      rw [hname] at h2
      exact ⟨h1.1, h2, h1.2⟩
    · rintro ⟨hY, hX, hadj⟩
      have hmem : X ∈ lines := by
        obtain ⟨i, _, hi⟩ := hadj
        exact List.mem_iff_getElem?.2 ⟨_, hi⟩
      obtain ⟨⟨k, p⟩, hkp, hk⟩ := List.mem_map.1 ((inv.reg_keys X).2 ⟨hmem, hX⟩)
      simp only at hk
      subst hk
      obtain ⟨e, he, hname⟩ := inv.reg_sound _ _ hkp
      have hkey := (inv.assoc_keys p e Y he).2 ⟨hY, by rw [hname]; exact hadj⟩
      obtain ⟨⟨k', q⟩, hkq, hk'⟩ := List.mem_map.1 hkey
      simp only at hk'
      subst hk'
      exact ⟨p, e, q, GoMap.lookup_of_mem inv.reg_nodup hkp, he,
        GoMap.lookup_of_mem (inv.assoc_nodup p e he) hkq⟩
  · intro p e q _ he hq
    exact GoMap.lookup_of_mem inv.reg_nodup (inv.assoc_sub p e Y q he (GoMap.mem_of_lookup hq))

/-- C17: after scanning and sorting, in every node of the Registry every entry of the
associations map and every element of `Links` is a node that carries the name it is
stored under and that the Registry holds under that name; so is every entry of the Roots
map. -/
theorem no_dangling_edges (R : Runtime) (lines : List String) :
    ∃ h,
      sortByFrequences R (scanLines lines).heap (scanLines lines).res = Except.ok h ∧
      (∀ k p, List.lookup k (scanLines lines).res.MapNameToNode = some p →
        ∃ e, h[p]? = some e ∧ e.Name = k ∧
          (∀ key c, (key, c) ∈ e.Map →
            List.lookup key (scanLines lines).res.MapNameToNode = some c ∧
            ∃ ce, h[c]? = some ce ∧ ce.Name = key) ∧
          (∀ l, l ∈ e.Links → ∃ c ce, l = Link.node c ∧ h[c]? = some ce ∧
            List.lookup ce.Name (scanLines lines).res.MapNameToNode = some c)) ∧
      (∀ key p, (key, p) ∈ (scanLines lines).res.TopLevelNode →
        List.lookup key (scanLines lines).res.MapNameToNode = some p ∧
        ∃ e, h[p]? = some e ∧ e.Name = key) := by
  have inv := scanLines_inv lines
  obtain ⟨h, hsort, hsame, hsorted⟩ := sortByFrequences_scan R lines
  -- a registered pointer holds a node of that name, also after sorting
  have hreg : ∀ key c, (key, c) ∈ (scanLines lines).res.MapNameToNode →
      List.lookup key (scanLines lines).res.MapNameToNode = some c ∧
      ∃ ce, h[c]? = some ce ∧ ce.Name = key := by
    intro key c hmem
    obtain ⟨e0, he0, hname⟩ := inv.reg_sound key c hmem
    obtain ⟨ce, hce, heq⟩ := hsame.node he0
    exact ⟨GoMap.lookup_of_mem inv.reg_nodup hmem, ce, hce, by rw [(eraseLinks_eq heq).2.1, hname]⟩
  refine ⟨h, hsort, ?_, fun key p hmem => hreg key p (inv.roots_sub key p hmem)⟩
  intro k p hk
  obtain ⟨hlk, e, he, hname⟩ := hreg k p (GoMap.mem_of_lookup hk)
  obtain ⟨e0, he0, heq⟩ := hsame.symm.node he
  have hmapsub : ∀ key c, (key, c) ∈ e.Map → (key, c) ∈ (scanLines lines).res.MapNameToNode := by
    intro key c hmem
    rw [← (eraseLinks_eq heq).2.2.1] at hmem
    exact inv.assoc_sub p e0 key c he0 hmem
  refine ⟨e, he, hname, fun key c hmem => hreg key c (hmapsub key c hmem), ?_⟩
  intro l hl
  obtain ⟨⟨key, c⟩, hmem, rfl⟩ := List.mem_map.1 ((hsorted p e he).1.mem_iff.1 hl)
  obtain ⟨hlk', ce, hce, hcn⟩ := hreg key c (hmapsub key c hmem)
  exact ⟨c, ce, rfl, hce, by rw [hcn]; exact hlk'⟩

theorem liveEdge_completeGraph {h : Heap} {a b : Nat} (ha : a < h.length)
    (hb : b < h.length) : liveEdge (completeGraph h) a b := by
  refine ⟨{ h[a] with Links := (List.range h.length).map Link.node }, ?_, ?_⟩
  · simp only [completeGraph, List.getElem?_map, List.getElem?_eq_getElem ha, Option.map_some']
  · exact List.mem_map.2 ⟨b, List.mem_range.2 hb, rfl⟩

/-- A call of `walkEntry` on any node of a finite graph, whatever the `Visited` flags:
it returns and only rewrites edges. -/
theorem walkEntry_any (h : Heap) (p : Nat) (hpv : PtrsValid h) (hp : p < h.length) :
    ∃ h', (∀ fuel, h.length < fuel → walkEntry fuel h p = Except.ok h') ∧
      Rew (fun _ _ => True) h h' := by
  obtain ⟨h', hrun, hrew, _⟩ := walkEntry_spec (completeGraph h) (h.length + 1) h p hpv hp
    (Nat.lt_succ_of_le (count_false_le h))
    (fun a b hab => by
      obtain ⟨e, he, hm⟩ := hab
      exact liveEdge_completeGraph (List.getElem?_eq_some.1 he).1 (hpv a e b he hm))
    (fun v hv => by
      have hv' : v < h.length := by
        have := (List.getElem?_eq_some.1 hv).1
        simpa [flags] using this
      exact Relation.ReflTransGen.single (liveEdge_completeGraph hv' hp))
  exact ⟨h', fun fuel hf => walkEntry_fuel_le (Nat.succ_le_of_lt hf) h p h' hrun,
    hrew.rew_mono fun _ _ _ => trivial⟩

/-- Any live path from `c` can be continued backwards to every node that reaches `c`. -/
theorem reach_extend {h : Heap} {r c : Nat} (hr : Reach h r c) (tail : List Nat)
    (ht : LivePath h (c :: tail)) :
    ∃ path, LivePath h (r :: path) ∧ (c :: tail) <:+ (r :: path) := by
  induction hr using Relation.ReflTransGen.head_induction_on with
  | refl => exact ⟨tail, ht, List.suffix_refl _⟩
  | head hedge _ ih =>
    obtain ⟨path, hp, hs⟩ := ih
    exact ⟨_ :: path, List.chain'_cons.2 ⟨hedge, hp⟩, hs.trans (List.suffix_cons _ _)⟩

/-- Where no live path from `r` repeats a node, no edge below `r` closes a cycle. -/
theorem acyclic_no_back_edge {h : Heap} {r n c : Nat}
    (hac : ∀ path, LivePath h (r :: path) → (r :: path).Nodup)
    (hrc : Reach h r c) (hcn : Reach h c n) (hedge : liveEdge h n c) : False := by
  have h1 : LivePath h (n :: [c]) :=
    List.chain'_cons.2 ⟨hedge, List.chain'_singleton c⟩
  obtain ⟨path2, hp2, hs2⟩ := reach_extend hcn [c] h1
  obtain ⟨path, hp, hs⟩ := reach_extend hrc path2 hp2
  have hnd : (c :: path2).Nodup := (hac path hp).sublist hs.sublist
  obtain ⟨pre, hpre⟩ := hs2
  cases pre with
  | nil =>
    simp only [List.nil_append, List.cons.injEq] at hpre
    obtain ⟨rfl, rfl⟩ := hpre
    simp at hnd
  | cons x pre' =>
    simp only [List.cons_append, List.cons.injEq] at hpre
    obtain ⟨rfl, rfl⟩ := hpre
    simp at hnd

theorem node_eq_of_rew {Q : Nat → Nat → Prop} {h : Heap} {p : Nat} {e e' : CallGraphNode}
    (n : NodeRew Q h p e e') (hl : e'.Links = e.Links) : e' = e := by
  cases e
  cases e'
  have h1 := n.count
  have h2 := n.name
  have h3 := n.map
  have h4 := n.visited
  simp only at h1 h2 h3 h4 hl
  subst h1 h2 h3 h4 hl
  rfl

/-- On a graph without a cycle below the roots the loop of `formatRes` changes nothing. -/
theorem walkRoots_acyclic (fuel : Nat) (roots : List Link) (h : Heap)
    (hfuel : h.length < fuel) (hpv : PtrsValid h) (hn : NoneVisited h)
    (hvalid : ∀ l ∈ roots, ∃ p : Nat, l = Link.node p ∧ p < h.length)
    (hac : ∀ p : Nat, Link.node p ∈ roots → ∀ path, LivePath h (p :: path) →
      (p :: path).Nodup) :
    walkRoots fuel roots h = Except.ok h := by
  obtain ⟨h', hrun, hrew, _⟩ :=
    walkRoots_spec h fuel roots h hfuel (fun _ _ hab => hab) hpv hn hvalid
  have heq : h' = h := by
    apply List.ext_getElem?
    intro q
    cases hq : h[q]? with
    | none =>
      rw [List.getElem?_eq_none_iff] at hq
      exact List.getElem?_eq_none (by rw [hrew.len]; exact hq)
    | some e =>
      obtain ⟨e', he', n⟩ := hrew.node q e hq
      rw [he']
      congr 1
      refine node_eq_of_rew n ?_
      apply List.ext_getElem?
      intro i
      rcases n.links i with h1 | ⟨c, _, h1, _, _, r, hr, hrc, hcq⟩
      · exact h1
      · exact (acyclic_no_back_edge (hac r hr) hrc hcq
          ⟨e, hq, List.mem_iff_getElem?.2 ⟨i, h1⟩⟩).elim
  rw [hrun, heq]

/-- C15: on a finite graph in which no node is marked `Visited`, `walkEntry` returns and
no node is marked in the heap it returns, whatever the recursion budget of a returning
call; and for every input no node is marked after `formatRes` has walked all roots. -/
theorem walkEntry_restores_flags (h : Heap) (p : Nat) (hpv : PtrsValid h)
    (hn : NoneVisited h) (hp : p < h.length) :
    (∃ h', (∀ fuel, h.length < fuel → walkEntry fuel h p = Except.ok h') ∧ NoneVisited h') ∧
    (∀ fuel r, walkEntry fuel h p = Except.ok r → NoneVisited r) ∧
    (∀ (R : Runtime) (lines : List String), ∃ hs graphList h',
      sortByFrequences R (scanLines lines).heap (scanLines lines).res = Except.ok hs ∧
      linearize R hs (scanLines lines).res = Except.ok (graphList, h') ∧
      NoneVisited h') := by
  obtain ⟨h', hrun, hrew, _⟩ := walkEntry_top h h p (fun _ _ hab => hab) hpv hn hp
  refine ⟨⟨h', hrun, hrew.noneVisited hn⟩, ?_, ?_⟩
  · intro fuel r hr
    have h1 := walkEntry_fuel_le (Nat.le_max_left fuel (h.length + 1)) h p r hr
    have h2 := hrun (max fuel (h.length + 1))
      (Nat.lt_of_lt_of_le (Nat.lt_succ_self _) (Nat.le_max_right _ _))
    rw [h1] at h2
    cases h2
    exact hrew.noneVisited hn
  · intro R lines
    obtain ⟨hs, hsort, hsame, hsorted⟩ := sortByFrequences_scan R lines
    obtain ⟨graphList, h2, hlin, _, _, hrew2, _⟩ := linearize_scan R lines hs hsame hsorted
    exact ⟨hs, graphList, h2, hsort, hlin, hrew2.noneVisited (sorted_noneVisited hsame)⟩

/-- Witness for C15: the cyclic two-node graph meets the hypotheses. -/
theorem walkEntry_restores_flags_witness :
    PtrsValid cyclicHeap ∧ NoneVisited cyclicHeap ∧ 0 < cyclicHeap.length ∧
    ((∃ h', (∀ fuel, cyclicHeap.length < fuel → walkEntry fuel cyclicHeap 0 = Except.ok h') ∧
        NoneVisited h') ∧
     (∀ fuel r, walkEntry fuel cyclicHeap 0 = Except.ok r → NoneVisited r) ∧
     (∀ (R : Runtime) (lines : List String), ∃ hs graphList h',
       sortByFrequences R (scanLines lines).heap (scanLines lines).res = Except.ok hs ∧
       linearize R hs (scanLines lines).res = Except.ok (graphList, h') ∧
       NoneVisited h')) :=
  ⟨cyclicHeap_ptrsValid, cyclicHeap_noneVisited, by decide,
    walkEntry_restores_flags cyclicHeap 0 cyclicHeap_ptrsValid cyclicHeap_noneVisited
      (by decide)⟩

/-- C16: on a finite graph, whatever the `Visited` flags, `walkEntry` returns a heap with
the same nodes, each with its `Count`, `Name`, associations map and `Visited` flag
unchanged and with `Links` of the same length, in which every position holds what it
held before or, where it held a reference to a node, the marker with that node's name. -/
theorem walkEntry_changes_only_edges (h : Heap) (p : Nat) (hpv : PtrsValid h)
    (hp : p < h.length) :
    ∃ h', (∀ fuel, h.length < fuel → walkEntry fuel h p = Except.ok h') ∧
      h'.length = h.length ∧
      ∀ (q : Nat) (e : CallGraphNode), h[q]? = some e →
        ∃ e', h'[q]? = some e' ∧ e'.Count = e.Count ∧ e'.Name = e.Name ∧ e'.Map = e.Map ∧
          e'.Visited = e.Visited ∧ e'.Links.length = e.Links.length ∧
          ∀ i : Nat, e'.Links[i]? = e.Links[i]? ∨
            ∃ c ce, e.Links[i]? = some (Link.node c) ∧ h[c]? = some ce ∧
              e'.Links[i]? = some (Link.str ("Backlink: " ++ ce.Name)) := by
  obtain ⟨h', hrun, hrew⟩ := walkEntry_any h p hpv hp
  refine ⟨h', hrun, hrew.len, ?_⟩
  intro q e he
  obtain ⟨e', he', n⟩ := hrew.node q e he
  refine ⟨e', he', n.count, n.name, n.map, n.visited, n.links_length, ?_⟩
  intro i
  rcases n.links i with h1 | ⟨c, ce, h1, h2, h3, _⟩
  · exact Or.inl h1
  · exact Or.inr ⟨c, ce, h1, h2, h3⟩

/-- Witness for C16: the cyclic two-node graph meets the hypotheses. -/
theorem walkEntry_changes_only_edges_witness :
    PtrsValid cyclicHeap ∧ 0 < cyclicHeap.length ∧
    ∃ h', (∀ fuel, cyclicHeap.length < fuel → walkEntry fuel cyclicHeap 0 = Except.ok h') ∧
      h'.length = cyclicHeap.length ∧
      ∀ (q : Nat) (e : CallGraphNode), cyclicHeap[q]? = some e →
        ∃ e', h'[q]? = some e' ∧ e'.Count = e.Count ∧ e'.Name = e.Name ∧ e'.Map = e.Map ∧
          e'.Visited = e.Visited ∧ e'.Links.length = e.Links.length ∧
          ∀ i : Nat, e'.Links[i]? = e.Links[i]? ∨
            ∃ c ce, e.Links[i]? = some (Link.node c) ∧ cyclicHeap[c]? = some ce ∧
              e'.Links[i]? = some (Link.str ("Backlink: " ++ ce.Name)) :=
  ⟨cyclicHeap_ptrsValid, by decide,
    walkEntry_changes_only_edges cyclicHeap 0 cyclicHeap_ptrsValid (by decide)⟩

/-- C18: on a finite graph in which no node is marked `Visited` and no path of live
references from a root visits a node twice, walking every root returns the heap it
started from: no edge is replaced and every node is what it was. -/
theorem walkRoots_identity_on_acyclic (h : Heap) (roots : List Link) (hpv : PtrsValid h)
    (hn : NoneVisited h)
    (hvalid : ∀ l ∈ roots, ∃ p : Nat, l = Link.node p ∧ p < h.length)
    (hac : ∀ p : Nat, Link.node p ∈ roots → ∀ path, LivePath h (p :: path) →
      (p :: path).Nodup) :
    ∀ fuel, h.length < fuel → walkRoots fuel roots h = Except.ok h :=
  fun fuel hfuel => walkRoots_acyclic fuel roots h hfuel hpv hn hvalid hac

theorem chainHeap_ptrsValid : PtrsValid chainHeap := by
  intro p e c he hm
  have hp : p < 2 := (List.getElem?_eq_some.1 he).1
  interval_cases p
  · simp [chainHeap] at he
    subst he
    simp at hm
    subst hm
    simp [chainHeap]
  · simp [chainHeap] at he
    subst he
    simp at hm

theorem chainHeap_noneVisited : NoneVisited chainHeap := by
  intro p e he
  have hp : p < 2 := (List.getElem?_eq_some.1 he).1
  interval_cases p <;> simp [chainHeap] at he <;> subst he <;> rfl

theorem chainHeap_edge {a b : Nat} (hab : liveEdge chainHeap a b) : a = 0 ∧ b = 1 := by
  obtain ⟨e, he, hm⟩ := hab
  have hp : a < 2 := (List.getElem?_eq_some.1 he).1
  interval_cases a
  · simp [chainHeap] at he
    subst he
    simp at hm
    exact ⟨rfl, hm⟩
  · simp [chainHeap] at he
    subst he
    simp at hm

theorem chainHeap_acyclic : ∀ p : Nat, Link.node p ∈ [Link.node 0] →
    ∀ path, LivePath chainHeap (p :: path) → (p :: path).Nodup := by
  intro p hp path hpath
  simp only [List.mem_singleton, Link.node.injEq] at hp
  subst hp
  match path, hpath with
  | [], _ => simp
  | [c], hpath =>
    have := chainHeap_edge (List.chain'_cons.1 hpath).1
    simp [this.2]
  | c :: d :: rest, hpath =>
    have h1 := chainHeap_edge (List.chain'_cons.1 hpath).1
    have h2 := chainHeap_edge (List.chain'_cons.1 (List.chain'_cons.1 hpath).2).1
    omega

/-- Witness for C18: the two-node chain meets the hypotheses and is left as it is. -/
theorem walkRoots_identity_on_acyclic_witness :
    PtrsValid chainHeap ∧ NoneVisited chainHeap ∧
    (∀ l ∈ [Link.node 0], ∃ p : Nat, l = Link.node p ∧ p < chainHeap.length) ∧
    (∀ p : Nat, Link.node p ∈ [Link.node 0] → ∀ path, LivePath chainHeap (p :: path) →
      (p :: path).Nodup) ∧
    ∀ fuel, chainHeap.length < fuel →
      walkRoots fuel [Link.node 0] chainHeap = Except.ok chainHeap :=
  have hvalid : ∀ l ∈ [Link.node 0], ∃ p : Nat, l = Link.node p ∧ p < chainHeap.length := by
    intro l hl
    simp only [List.mem_singleton] at hl
    exact ⟨0, hl, by decide⟩
  ⟨chainHeap_ptrsValid, chainHeap_noneVisited, hvalid, chainHeap_acyclic,
    walkRoots_identity_on_acyclic chainHeap [Link.node 0] chainHeap_ptrsValid
      chainHeap_noneVisited hvalid chainHeap_acyclic⟩

/-- C19: for every input and every runtime, after `formatRes` has walked the roots,
walking the same root list again returns the heap unchanged. -/
theorem linearize_idempotent (R : Runtime) (lines : List String) :
    ∃ h graphList h',
      sortByFrequences R (scanLines lines).heap (scanLines lines).res = Except.ok h ∧
      linearize R h (scanLines lines).res = Except.ok (graphList, h') ∧
      ∀ fuel, h'.length < fuel → walkRoots fuel graphList h' = Except.ok h' := by
  have inv := scanLines_inv lines
  obtain ⟨h, hsort, hsame, hsorted⟩ := sortByFrequences_scan R lines
  obtain ⟨graphList, h', hlin, hperm, _, hrew, hac⟩ := linearize_scan R lines h hsame hsorted
  refine ⟨h, graphList, h', hsort, hlin, ?_⟩
  intro fuel hfuel
  refine walkRoots_acyclic fuel graphList h' hfuel
    (hrew.ptrsValid (sorted_ptrsValid hsame hsorted))
    (hrew.noneVisited (sorted_noneVisited hsame)) ?_ hac
  intro l hl
  obtain ⟨kv, hkv, rfl⟩ := List.mem_map.1 (hperm.mem_iff.1 hl)
  obtain ⟨e, he, _⟩ := inv.reg_sound kv.1 kv.2 (inv.roots_sub kv.1 kv.2 hkv)
  refine ⟨kv.2, rfl, ?_⟩
  rw [hrew.len, hsame.same_length]
  exact (List.getElem?_eq_some.1 he).1

/-- A list sorted by non-increasing `Count` is determined by its elements when their
counts are distinct. -/
theorem sorted_unique {h : Heap} {l1 l2 : List Link} (hperm : l1.Perm l2)
    (hs1 : l1.Pairwise (CountGE h)) (hs2 : l2.Pairwise (CountGE h))
    (hnd : (l1.map (linkCount h)).Nodup) : l1 = l2 := by
  refine List.Perm.eq_of_sorted ?_ hs1 hs2 hperm
  intro a b ha hb hab hba
  refine List.inj_on_of_nodup_map hnd ha (hperm.mem_iff.2 hb) ?_
  obtain ⟨ca, cb, h1, h2, h3⟩ := hab
  obtain ⟨cb', ca', h4, h5, h6⟩ := hba
  rw [h1] at h5
  rw [h2] at h4
  cases h4
  cases h5
  rw [h1, h2]
  congr 1
  omega

theorem node_eq_of_eraseLinks {a b : CallGraphNode} (h : eraseLinks a = eraseLinks b)
    (hl : a.Links = b.Links) : a = b := by
  cases a
  cases b
  simp only [eraseLinks, CallGraphNode.mk.injEq] at h
  simp only at hl
  simp [h, hl]

/-- The sorted root list of `formatRes` on a scanned and sorted heap. -/
theorem rootList_spec (R : Runtime) (lines : List String) (h : Heap)
    (hsame : SameButLinks (scanLines lines).heap h) :
    ∃ graphList,
      sortVec R h (mapToList (R.rangeMap MapId.roots) (scanLines lines).res.TopLevelNode) =
        Except.ok graphList ∧
      graphList.Perm ((scanLines lines).res.TopLevelNode.map fun kv => Link.node kv.2) ∧
      graphList.Pairwise (CountGE h) := by
  have inv := scanLines_inv lines
  have hv : ∀ l ∈ mapToList (R.rangeMap MapId.roots) (scanLines lines).res.TopLevelNode,
      (linkCount h l).isSome = true := by
    intro l hl
    obtain ⟨kv, hkv, rfl⟩ := List.mem_map.1 hl
    have hmem := (R.rangeMap_perm _ _).mem_iff.1 hkv
    obtain ⟨e, he, _⟩ := inv.reg_sound kv.1 kv.2 (inv.roots_sub kv.1 kv.2 hmem)
    have hlt : kv.2 < h.length := by
      rw [hsame.same_length]
      exact (List.getElem?_eq_some.1 he).1
    simp [linkCount, List.getElem?_eq_getElem hlt]
  obtain ⟨graphList, hsort, hperm, hpw⟩ := sortVec_spec R h _ hv
  exact ⟨graphList, hsort, hperm.trans ((R.rangeMap_perm _ _).map _), hpw⟩

/-- Without ties the sorted heap does not depend on the runtime. -/
theorem sortByFrequences_unique (R1 R2 : Runtime) (lines : List String)
    (hnt : NoTies (scanLines lines)) :
    sortByFrequences R1 (scanLines lines).heap (scanLines lines).res =
      sortByFrequences R2 (scanLines lines).heap (scanLines lines).res := by
  obtain ⟨h1, hsort1, hsame1, hsorted1⟩ := sortByFrequences_scan R1 lines
  obtain ⟨h2, hsort2, hsame2, hsorted2⟩ := sortByFrequences_scan R2 lines
  rw [hsort1, hsort2]
  congr 1
  apply List.ext_getElem?
  intro p
  cases hp : (scanLines lines).heap[p]? with
  | none =>
    rw [List.getElem?_eq_none_iff] at hp
    rw [List.getElem?_eq_none (by rw [hsame1.same_length]; exact hp),
      List.getElem?_eq_none (by rw [hsame2.same_length]; exact hp)]
  | some e0 =>
    obtain ⟨e1, he1, heq1⟩ := hsame1.node hp
    obtain ⟨e2, he2, heq2⟩ := hsame2.node hp
    rw [he1, he2]
    congr 1
    refine node_eq_of_eraseLinks (heq1.trans heq2.symm) ?_
    have hm1 := (eraseLinks_eq heq1).2.2.1
    have hm2 := (eraseLinks_eq heq2).2.2.1
    have hperm : e1.Links.Perm e2.Links := by
      have a := (hsorted1 p e1 he1).1
      have b := (hsorted2 p e2 he2).1
      rw [hm1] at a
      rw [hm2] at b
      exact a.trans b.symm
    have hnd : (e1.Links.map (linkCount (scanLines lines).heap)).Nodup := by
      have a := (hsorted1 p e1 he1).1
      rw [hm1] at a
      have := hnt.1 e0 (List.mem_iff_getElem?.2 ⟨p, hp⟩)
      refine (a.map _).nodup_iff.2 ?_
      simpa [List.map_map, Function.comp_def] using this
    exact sorted_unique hperm
      ((hsorted1 p e1 he1).2.imp fun hxy => hxy.count_mono hsame1.symm)
      ((hsorted2 p e2 he2).2.imp fun hxy => hxy.count_mono hsame2.symm) hnd

/-- Without ties the root list, and with it the walks of `formatRes`, do not depend on the
runtime. -/
theorem linearize_unique (R1 R2 : Runtime) (lines : List String)
    (hnt : NoTies (scanLines lines)) (h : Heap)
    (hsame : SameButLinks (scanLines lines).heap h) :
    linearize R1 h (scanLines lines).res = linearize R2 h (scanLines lines).res := by
  obtain ⟨g1, hs1, hp1, hw1⟩ := rootList_spec R1 lines h hsame
  obtain ⟨g2, hs2, hp2, hw2⟩ := rootList_spec R2 lines h hsame
  have hnd : (g1.map (linkCount h)).Nodup := by
    refine (hp1.map _).nodup_iff.2 ?_
    have := hnt.2
    simpa [List.map_map, Function.comp_def, hsame.linkCount] using this
  have hg : g1 = g2 := sorted_unique (hp1.trans hp2.symm) hw1 hw2 hnd
  simp only [linearize, hs1, hs2, hg]

/-- C12 (counterexample): on the traces A,B / A,C the roots B and C tie with one call
each; a runtime that visits maps in insertion order and one that visits them in reverse
order both meet the contracts, and the two runs hand different texts to the writer: the
first run puts the root B before the root C in the root list, the second run C before B. -/
theorem tie_breaks_determinism :
    (pipeline stdRuntime ["#A", "#B", "", "#A", "#C", ""]).map Writer.text = Except.ok
      (utf8 ("<html><body>\n" ++
       "<details><summary><b>Expand/Collapse</b> calls: 1, B</summary>\n<ul>\n" ++
       "<li>calls: 2, A</ul>\n</details>\n" ++
       "<details><summary><b>Expand/Collapse</b> calls: 1, C</summary>\n<ul>\n" ++
       "<li>calls: 2, A</ul>\n</details>\n")) ∧
    (pipeline revRuntime ["#A", "#B", "", "#A", "#C", ""]).map Writer.text = Except.ok
      (utf8 ("<html><body>\n" ++
       "<details><summary><b>Expand/Collapse</b> calls: 1, C</summary>\n<ul>\n" ++
       "<li>calls: 2, A</ul>\n</details>\n" ++
       "<details><summary><b>Expand/Collapse</b> calls: 1, B</summary>\n<ul>\n" ++
       "<li>calls: 2, A</ul>\n</details>\n")) ∧
    pipeline stdRuntime ["#A", "#B", "", "#A", "#C", ""] ≠
      pipeline revRuntime ["#A", "#B", "", "#A", "#C", ""] ∧
    ((sortByFrequences stdRuntime (scanLines ["#A", "#B", "", "#A", "#C", ""]).heap
        (scanLines ["#A", "#B", "", "#A", "#C", ""]).res).bind fun h =>
      (linearize stdRuntime h (scanLines ["#A", "#B", "", "#A", "#C", ""]).res).map
        Prod.fst) = Except.ok [Link.node 1, Link.node 2] ∧
    ((sortByFrequences revRuntime (scanLines ["#A", "#B", "", "#A", "#C", ""]).heap
        (scanLines ["#A", "#B", "", "#A", "#C", ""]).res).bind fun h =>
      (linearize revRuntime h (scanLines ["#A", "#B", "", "#A", "#C", ""]).res).map
        Prod.fst) = Except.ok [Link.node 2, Link.node 1] := by
  set_option maxRecDepth 100000 in decide

/-- C12 (amended): when no two nodes in the associations of one node, and no two roots,
carry the same `Count`, then for any two runtimes the sorted heaps agree, the root lists
and the heaps after the walks agree, and the results of the whole pipeline agree. -/
theorem pipeline_deterministic_without_ties (R1 R2 : Runtime) (lines : List String)
    (hnt : NoTies (scanLines lines)) :
    sortByFrequences R1 (scanLines lines).heap (scanLines lines).res =
      sortByFrequences R2 (scanLines lines).heap (scanLines lines).res ∧
    (∀ h, sortByFrequences R1 (scanLines lines).heap (scanLines lines).res = Except.ok h →
      linearize R1 h (scanLines lines).res = linearize R2 h (scanLines lines).res) ∧
    pipeline R1 lines = pipeline R2 lines := by
  have hsortEq := sortByFrequences_unique R1 R2 lines hnt
  obtain ⟨h1, hsort1, hsame1, _⟩ := sortByFrequences_scan R1 lines
  refine ⟨hsortEq, ?_, ?_⟩
  · intro h hh
    rw [hsort1] at hh
    cases hh
    exact linearize_unique R1 R2 lines hnt h1 hsame1
  · have hlin := linearize_unique R1 R2 lines hnt h1 hsame1
    simp only [pipeline, ← hsortEq, hsort1, formatRes, hlin]

/-- Witness for C12: the traces A,B / A,C / A,C give the roots B and C with one and two
calls; the two runtimes write the same document. -/
theorem pipeline_deterministic_without_ties_witness :
    NoTies (scanLines ["#A", "#B", "", "#A", "#C", "", "#A", "#C", ""]) ∧
    (sortByFrequences stdRuntime
        (scanLines ["#A", "#B", "", "#A", "#C", "", "#A", "#C", ""]).heap
        (scanLines ["#A", "#B", "", "#A", "#C", "", "#A", "#C", ""]).res =
      sortByFrequences revRuntime
        (scanLines ["#A", "#B", "", "#A", "#C", "", "#A", "#C", ""]).heap
        (scanLines ["#A", "#B", "", "#A", "#C", "", "#A", "#C", ""]).res ∧
     (∀ h, sortByFrequences stdRuntime
          (scanLines ["#A", "#B", "", "#A", "#C", "", "#A", "#C", ""]).heap
          (scanLines ["#A", "#B", "", "#A", "#C", "", "#A", "#C", ""]).res = Except.ok h →
        linearize stdRuntime h
            (scanLines ["#A", "#B", "", "#A", "#C", "", "#A", "#C", ""]).res =
          linearize revRuntime h
            (scanLines ["#A", "#B", "", "#A", "#C", "", "#A", "#C", ""]).res) ∧
     pipeline stdRuntime ["#A", "#B", "", "#A", "#C", "", "#A", "#C", ""] =
       pipeline revRuntime ["#A", "#B", "", "#A", "#C", "", "#A", "#C", ""]) :=
  have hnt : NoTies (scanLines ["#A", "#B", "", "#A", "#C", "", "#A", "#C", ""]) := by
    unfold NoTies
    decide
  ⟨hnt, pipeline_deterministic_without_ties stdRuntime revRuntime _ hnt⟩

/-! ## Bytes and the writer -/

theorem utf8_append (a b : String) : utf8 (a ++ b) = utf8 a ++ utf8 b := by
  simp [utf8, String.toUTF8]

/-- Dropping the first byte of a text that starts with the marker character drops that
character. -/
theorem utf8_drop_marker (rest : String) : (utf8 ("#" ++ rest)).drop 1 = utf8 rest := by
  rw [utf8_append]
  rfl

/-- Whatever the state of the buffer, `WriteString` adds the string to the text the writer
has been handed. -/
theorem Writer.text_WriteString (w : Writer) (s : Bytes) :
    (w.WriteString s).text = w.text ++ s := by
  unfold Writer.WriteString
  by_cases h1 : s.length ≤ w.Available
  · simp [h1, Writer.text]
  · by_cases h2 : w.buf.length = 0
    · have hb : w.buf = [] := List.length_eq_zero.1 h2
      simp [h1, hb, Writer.text]
    · simp only [h1, h2, if_false]
      split_ifs <;> simp [Writer.text, Writer.Flush]

/-- What is in the file stays in the file: `WriteString` only adds to it. -/
theorem Writer.file_WriteString (w : Writer) (s : Bytes) :
    ∃ t, (w.WriteString s).file = w.file ++ t := by
  unfold Writer.WriteString
  by_cases h1 : s.length ≤ w.Available
  · exact ⟨[], by simp [h1]⟩
  · by_cases h2 : w.buf.length = 0
    · exact ⟨s, by simp [h1, h2]⟩
    · simp only [h1, h2, if_false]
      split_ifs
      · exact ⟨w.buf ++ s.take w.Available, by simp [Writer.Flush]⟩
      · exact ⟨w.buf ++ s.take w.Available ++ s.drop w.Available, by simp [Writer.Flush]⟩

/-! ## The title -/

theorem intercalate_cons_cons (s a b : Bytes) (l : List Bytes) :
    s.intercalate (a :: b :: l) = a ++ s ++ s.intercalate (b :: l) := by
  simp [List.intercalate, List.intersperse]

theorem splitTabSpace_ne_nil (cs acc : Bytes) : splitTabSpace cs acc ≠ [] := by
  induction cs, acc using splitTabSpace.induct with
  | case1 acc => simp [splitTabSpace]
  | case2 c acc => simp [splitTabSpace]
  | case3 c d rest acc h ih => simp [splitTabSpace, h]
  | case4 c d rest acc h ih => simpa [splitTabSpace, h] using ih

/-- Joining the tokens of `strings.Split(s, "\t ")` with a space replaces every
tab-space pair of `s` by a space. -/
theorem intercalate_splitTabSpace (cs acc : Bytes) :
    (utf8 " ").intercalate (splitTabSpace cs acc) = acc.reverse ++ replaceTabSpace cs := by
  have hsp : utf8 " " = [32] := rfl
  induction cs, acc using splitTabSpace.induct with
  | case1 acc => simp [splitTabSpace, replaceTabSpace, List.intercalate]
  | case2 c acc => simp [splitTabSpace, replaceTabSpace, List.intercalate]
  | case3 c d rest acc h ih =>
    obtain ⟨a, l, hal⟩ := List.exists_cons_of_ne_nil (splitTabSpace_ne_nil rest [])
    rw [splitTabSpace, if_pos h, replaceTabSpace, if_pos h]
    rw [hal] at ih ⊢
    rw [intercalate_cons_cons, ih, hsp]
    simp
  | case4 c d rest acc h ih =>
    rw [splitTabSpace, if_neg h, replaceTabSpace, if_neg h, ih]
    simp

theorem formatName_eq (title : String) (callCount : Int) (h : title ≠ "") :
    formatName title callCount = Except.ok
      (utf8 "calls: " ++ utf8 (toString callCount) ++ utf8 ", " ++
        replaceTabSpace ((utf8 title).drop 1)) := by
  simp only [formatName, if_neg h, intercalate_splitTabSpace]
  rfl

/-- A name without a tab followed by a space is not changed by the replacement. -/
theorem replaceTabSpace_id (cs : Bytes)
    (h : ∀ i : Nat, cs[i]? = some 9 → cs[i + 1]? ≠ some 32) : replaceTabSpace cs = cs := by
  induction cs using replaceTabSpace.induct with
  | case1 => rfl
  | case2 c => rfl
  | case3 c d rest hcd ih =>
    exact absurd (by simp [hcd.2]) (h 0 (by simp [hcd.1]))
  | case4 c d rest hcd ih =>
    rw [replaceTabSpace, if_neg hcd, ih]
    intro i hi
    have := h (i + 1) (by simpa using hi)
    simpa using this

/-! ## Rendering returns -/

theorem livePath_reach {h : Heap} : ∀ (path : List Nat) (a b : Nat),
    LivePath h (a :: path) → (a :: path).getLast? = some b → Reach h a b := by
  intro path
  induction path with
  | nil =>
    intro a b _ hl
    simp only [List.getLast?_singleton, Option.some.injEq] at hl
    subst hl
    exact Relation.ReflTransGen.refl
  | cons c rest ih =>
    intro a b hp hl
    rw [List.getLast?_cons_cons] at hl
    obtain ⟨hedge, htail⟩ := List.chain'_cons.1 hp
    exact Relation.ReflTransGen.head hedge (ih c b htail hl)

theorem livePath_lt {h : Heap} : ∀ (l : List Nat), LivePath h l →
    (∀ b, l.getLast? = some b → b < h.length) → ∀ x ∈ l, x < h.length := by
  intro l
  induction l with
  | nil => intro _ _ x hx; cases hx
  | cons a rest ih =>
    intro hp hlast x hx
    cases rest with
    | nil =>
      simp only [List.mem_singleton] at hx
      subst hx
      exact hlast x rfl
    | cons c rest' =>
      obtain ⟨hedge, htail⟩ := List.chain'_cons.1 hp
      rcases List.mem_cons.1 hx with rfl | hx
      · obtain ⟨e, he, _⟩ := hedge
        exact (List.getElem?_eq_some.1 he).1
      · exact ih htail (fun b hb => hlast b (by rw [List.getLast?_cons_cons]; exact hb)) x hx

theorem nodup_length_le {l : List Nat} {n : Nat} (hnd : l.Nodup) (hlt : ∀ x ∈ l, x < n) :
    l.length ≤ n := by
  have hsub : l ⊆ List.range n := fun x hx => List.mem_range.2 (hlt x hx)
  have := (List.subperm_of_subset hnd hsub).length_le
  simpa using this

theorem writeLinks_ok (write : Writer → Link → Except Err Writer) (ls : List Link)
    (hw : ∀ l ∈ ls, ∃ s, ∀ w, ∃ w1, write w l = Except.ok w1 ∧ w1.text = w.text ++ s) :
    ∃ s, ∀ w, ∃ w1, writeLinks write ls w = Except.ok w1 ∧ w1.text = w.text ++ s := by
  induction ls with
  | nil => exact ⟨[], fun w => ⟨w, by simp [writeLinks]⟩⟩
  | cons l rest ih =>
    obtain ⟨s1, h1⟩ := hw l (List.mem_cons_self _ _)
    obtain ⟨s2, h2⟩ := ih (fun l' hl' => hw l' (List.mem_cons_of_mem _ hl'))
    refine ⟨utf8 "<li>" ++ s1 ++ s2, fun w => ?_⟩
    obtain ⟨w1, r1, t1⟩ := h1 (w.WriteString (utf8 "<li>"))
    obtain ⟨w2, r2, t2⟩ := h2 w1
    refine ⟨w2, ?_, ?_⟩
    · simp only [writeLinks, r1, r2]
    · rw [t2, t1, Writer.text_WriteString]
      simp only [List.append_assoc]

theorem RendersNode.text {h : Heap} {fuel q : Nat} {e : CallGraphNode}
    (r : RendersNode h fuel q e) :
    ∃ s, ∀ w, ∃ w1, writeEntry fuel h w (Link.node q) = Except.ok w1 ∧
      w1.text = w.text ++ s := by
  by_cases hl : e.Links = []
  · exact ⟨nodeTitle e, fun w => ⟨_, r.1 hl w, Writer.text_WriteString _ _⟩⟩
  · obtain ⟨body, hb⟩ := r.2 hl
    exact ⟨_, hb⟩

/-- Rendering below a renderable node `root` returns: for the node at the end of a live
path from `root`, with a recursion budget that covers the nodes not on the path. -/
theorem writeEntry_renders {h : Heap} {root : Nat} (hr : Renderable h root) :
    ∀ (fuel : Nat) (path : List Nat) (q : Nat), LivePath h (root :: path) →
      (root :: path).getLast? = some q → h.length + 1 ≤ fuel + path.length →
      ∃ e, h[q]? = some e ∧ RendersNode h fuel q e := by
  intro fuel
  induction fuel with
  | zero =>
    intro path q hp hl hf
    exfalso
    have hq : q < h.length := by
      obtain ⟨e, he, _⟩ := hr.1 q (livePath_reach path root q hp hl)
      exact (List.getElem?_eq_some.1 he).1
    have hlen := nodup_length_le (hr.2 path hp)
      (livePath_lt _ hp (fun b hb => by rw [hl] at hb; cases hb; exact hq))
    simp only [List.length_cons] at hlen
    omega
  | succ fuel ih =>
    intro path q hp hl hf
    obtain ⟨e, he, hname, hlinks⟩ := hr.1 q (livePath_reach path root q hp hl)
    refine ⟨e, he, ?_⟩
    have hchild : ∀ l ∈ e.Links, ∃ s, ∀ w, ∃ w1,
        writeEntry fuel h w l = Except.ok w1 ∧ w1.text = w.text ++ s := by
      intro l hl'
      obtain ⟨c, rfl, _⟩ := hlinks l hl'
      have hp' : LivePath h (root :: (path ++ [c])) := by
        have : root :: (path ++ [c]) = (root :: path) ++ [c] := rfl
        rw [this]
        refine List.Chain'.append hp (List.chain'_singleton c) ?_
        intro x hx y hy
        rw [hl] at hx
        cases hx
        simp only [List.head?_cons, Option.mem_def, Option.some.injEq] at hy
        subst hy
        exact ⟨e, he, hl'⟩
      have hl2 : (root :: (path ++ [c])).getLast? = some c := by
        have : root :: (path ++ [c]) = (root :: path) ++ [c] := rfl
        rw [this, List.getLast?_concat]
      obtain ⟨ce, _, hrc⟩ := ih (path ++ [c]) c hp' hl2 (by simp; omega)
      exact hrc.text
    have hfn : formatName e.Name e.Count = Except.ok (nodeTitle e) := formatName_eq _ _ hname
    constructor
    · intro hnil w
      simp only [writeEntry, he, hfn, hnil, List.length_nil, ne_eq, not_true_eq_false,
        if_false]
    · intro hne
      have hlen : e.Links.length ≠ 0 := by
        intro h0
        exact hne (List.length_eq_zero.1 h0)
      obtain ⟨body, hall⟩ := writeLinks_ok (writeEntry fuel h) e.Links hchild
      refine ⟨body, fun w => ?_⟩
      obtain ⟨w1, hbody, htext⟩ := hall
        ((w.WriteString (utf8 "<details><summary><b>Expand/Collapse</b> " ++ nodeTitle e ++
          utf8 "</summary>\n")).WriteString (utf8 "<ul>\n"))
      refine ⟨(w1.WriteString (utf8 "</ul>\n")).WriteString (utf8 "</details>\n"), ?_, ?_⟩
      · simp only [writeEntry, he, hfn, ne_eq, hlen, not_false_eq_true, if_true, hbody]
      · simp only [Writer.text_WriteString, htext, List.append_assoc]

theorem chainHeap_renderable : Renderable chainHeap 0 := by
  constructor
  · intro q hq
    have hq' : q = 0 ∨ q = 1 := by
      induction hq with
      | refl => exact Or.inl rfl
      | tail _ hedge _ => exact Or.inr (chainHeap_edge hedge).2
    rcases hq' with rfl | rfl
    · refine ⟨_, rfl, by decide, ?_⟩
      intro l hl
      change l ∈ [Link.node 1] at hl
      simp only [List.mem_singleton] at hl
      exact ⟨1, hl, by decide⟩
    · refine ⟨_, rfl, by decide, ?_⟩
      intro l hl
      change l ∈ ([] : List Link) at hl
      cases hl
  · exact chainHeap_acyclic 0 (List.mem_singleton.2 rfl)

/-- C11 (counterexample): the input line that consists of the marker character, `f`, a
tab, a space and `g`, followed by an empty line, gives one node without children, named
by that line and counted once. For it `writeEntry` hands the writer the title
`calls: 1, f g`; the name with only the leading marker character removed would keep the
tab. -/
theorem title_replaces_tab_space :
    (scanLines ["#f\t g", ""]).heap =
      [{ Count := 1, Name := "#f\t g", Links := [], Map := [], Visited := false }] ∧
    (writeEntry 2 (scanLines ["#f\t g", ""]).heap NewWriter (Link.node 0)).map Writer.text =
      Except.ok (utf8 "calls: 1, f g") ∧
    (writeEntry 2 (scanLines ["#f\t g", ""]).heap NewWriter (Link.node 0)).map Writer.text ≠
      Except.ok (utf8 ("calls: 1, " ++ "f\t g")) ∧
    (pipeline stdRuntime ["#f\t g", ""]).map Writer.text =
      Except.ok (utf8 ("<html><body>\n" ++ "calls: 1, f g")) := by
  decide

theorem reach_lt {h : Heap} (hpv : PtrsValid h) {a b : Nat} (ha : a < h.length)
    (hr : Reach h a b) : b < h.length := by
  induction hr with
  | refl => exact ha
  | tail _ hedge _ =>
    obtain ⟨e, he, hmem⟩ := hedge
    exact hpv _ e _ he hmem

/-- Every node the program reaches from a root after the walks, and below which no marker
occurs, is renderable: the scanner names every node by a frame line, sorting and the walks
keep the names and the allocated nodes, and the walks leave no path from a root that
repeats a node. -/
theorem pipeline_renderable (R : Runtime) (lines : List String) (hs : Heap)
    (graphList : List Link) (h : Heap)
    (hsort : sortByFrequences R (scanLines lines).heap (scanLines lines).res = Except.ok hs)
    (hlin : linearize R hs (scanLines lines).res = Except.ok (graphList, h))
    (root p : Nat) (hroot : Link.node root ∈ graphList) (hreach : Reach h root p)
    (hnm : ∀ q e, Reach h p q → h[q]? = some e → ∀ l ∈ e.Links, ∃ c : Nat, l = Link.node c) :
    Renderable h p := by
  have inv := scanLines_inv lines
  obtain ⟨hs0, hsort0, hsame, hsorted⟩ := sortByFrequences_scan R lines
  rw [hsort] at hsort0
  cases hsort0
  obtain ⟨g, h0, hlin0, hperm, _, hrew, hac⟩ := linearize_scan R lines hs hsame hsorted
  rw [hlin] at hlin0
  cases hlin0
  have hpv : PtrsValid h := hrew.ptrsValid (sorted_ptrsValid hsame hsorted)
  have hrootlt : root < h.length := by
    obtain ⟨kv, hkv, hc⟩ := List.mem_map.1 (hperm.mem_iff.1 hroot)
    cases hc
    obtain ⟨e, he, _⟩ := inv.reg_sound kv.1 kv.2 (inv.roots_sub kv.1 kv.2 hkv)
    rw [hrew.len, hsame.same_length]
    exact (List.getElem?_eq_some.1 he).1
  have hplt : p < h.length := reach_lt hpv hrootlt hreach
  constructor
  · intro q hq
    have hqlt : q < h.length := reach_lt hpv hplt hq
    refine ⟨h[q], List.getElem?_eq_getElem hqlt, ?_, ?_⟩
    · obtain ⟨e1, he1, hn1⟩ := hrew.node' (List.getElem?_eq_getElem hqlt)
      obtain ⟨e0, he0, heq⟩ := hsame.symm.node he1
      have hframe := inv.name_frame he0
      rw [hn1.name, ← (eraseLinks_eq heq).2.1]
      intro hempty
      rw [hempty] at hframe
      exact absurd hframe (by decide)
    · intro l hl
      obtain ⟨c, rfl⟩ := hnm q _ hq (List.getElem?_eq_getElem hqlt) l hl
      exact ⟨c, rfl, hpv q _ c (List.getElem?_eq_getElem hqlt) hl⟩
  · intro path hp
    obtain ⟨path2, hp2, hsuf⟩ := reach_extend hreach path hp
    exact (hac root hroot path2 hp2).sublist hsuf.sublist

theorem rootedHeap_no_marker (q : Nat) (e : CallGraphNode) (he : rootedHeap[q]? = some e) :
    ∀ l ∈ e.Links, ∃ c : Nat, l = Link.node c := by
  have hall : ∀ e ∈ rootedHeap, ∀ l ∈ e.Links, l = Link.node 0 := by decide
  intro l hl
  exact ⟨0, hall e (List.mem_iff_getElem?.2 ⟨q, he⟩) l hl⟩

/-- C11 (amended): call a node renderable when every node that can be reached from it over
references is allocated, has a non-empty `Name` and has only references to allocated nodes
among its children (no marker), and no path of references from it visits a node twice.
For a renderable node `writeEntry` returns, for every recursion budget above the number of
nodes and every writer. When the node has no child it hands the writer the title alone, in
one write; when it has children it hands the writer a collapsible section with that title
around a body, the same body for every writer. The title is `calls: `, the `Count`, a
comma and a space, and the bytes of the `Name` without the first byte and with every
tab-space pair replaced by a space; for a `Name` that is the marker character followed by
a text without such a pair, that is the text. And for every input and every runtime, every
node that the program reaches from a root after the walks, and below which no marker
occurs, is renderable. -/
theorem writeEntry_renders_node :
    (∀ (h : Heap) (p : Nat), Renderable h p →
      ∃ e, h[p]? = some e ∧
        (∀ fuel, h.length < fuel →
          (e.Links = [] → ∀ w : Writer,
            writeEntry fuel h w (Link.node p) = Except.ok (w.WriteString (nodeTitle e))) ∧
          (e.Links ≠ [] → ∃ body, ∀ w : Writer, ∃ w1,
            writeEntry fuel h w (Link.node p) = Except.ok w1 ∧
            w1.text = w.text ++ (utf8 "<details><summary><b>Expand/Collapse</b> " ++
              nodeTitle e ++ utf8 "</summary>\n" ++ utf8 "<ul>\n" ++ body ++
              utf8 "</ul>\n" ++ utf8 "</details>\n"))) ∧
        (∀ w : Writer, (w.WriteString (nodeTitle e)).text = w.text ++ nodeTitle e) ∧
        nodeTitle e = utf8 "calls: " ++ utf8 (toString e.Count) ++ utf8 ", " ++
          replaceTabSpace ((utf8 e.Name).drop 1) ∧
        (∀ rest : String, e.Name = "#" ++ rest →
          (∀ i : Nat, (utf8 rest)[i]? = some 9 → (utf8 rest)[i + 1]? ≠ some 32) →
          nodeTitle e = utf8 ("calls: " ++ toString e.Count ++ ", " ++ rest))) ∧
    (∀ (R : Runtime) (lines : List String) (hs : Heap) (graphList : List Link) (h : Heap)
        (root p : Nat),
      sortByFrequences R (scanLines lines).heap (scanLines lines).res = Except.ok hs →
      linearize R hs (scanLines lines).res = Except.ok (graphList, h) →
      Link.node root ∈ graphList → Reach h root p →
      (∀ q e, Reach h p q → h[q]? = some e → ∀ l ∈ e.Links, ∃ c : Nat, l = Link.node c) →
      Renderable h p) := by
  refine ⟨?_, fun R lines hs graphList h root p hsort hlin hroot hreach hnm =>
    pipeline_renderable R lines hs graphList h hsort hlin root p hroot hreach hnm⟩
  intro h p hr
  have hrender := writeEntry_renders hr
  obtain ⟨e, he, _⟩ := hrender (h.length + 1) [] p (List.chain'_singleton p) rfl (by simp)
  refine ⟨e, he, ?_, fun w => Writer.text_WriteString w _, rfl, ?_⟩
  · intro fuel hf
    obtain ⟨e', he', hr'⟩ := hrender fuel [] p (List.chain'_singleton p) rfl
      (by simp only [List.length_nil, Nat.add_zero]; omega)
    rw [he] at he'
    cases he'
    exact hr'
  · intro rest hrest hno
    rw [nodeTitle, hrest, utf8_drop_marker, replaceTabSpace_id _ hno]
    simp only [utf8_append, List.append_assoc]

/-- Witness for C11: the two-node chain is renderable from its first node, which is
written as a collapsible section; and on the trace A, B the root B, which the program
renders, has no marker below it and is renderable. -/
theorem writeEntry_renders_node_witness :
    Renderable chainHeap 0 ∧
    (∃ e, chainHeap[0]? = some e ∧
      (∀ fuel, chainHeap.length < fuel →
        (e.Links = [] → ∀ w : Writer,
          writeEntry fuel chainHeap w (Link.node 0) =
            Except.ok (w.WriteString (nodeTitle e))) ∧
        (e.Links ≠ [] → ∃ body, ∀ w : Writer, ∃ w1,
          writeEntry fuel chainHeap w (Link.node 0) = Except.ok w1 ∧
          w1.text = w.text ++ (utf8 "<details><summary><b>Expand/Collapse</b> " ++
            nodeTitle e ++ utf8 "</summary>\n" ++ utf8 "<ul>\n" ++ body ++
            utf8 "</ul>\n" ++ utf8 "</details>\n"))) ∧
      (∀ w : Writer, (w.WriteString (nodeTitle e)).text = w.text ++ nodeTitle e) ∧
      nodeTitle e = utf8 "calls: " ++ utf8 (toString e.Count) ++ utf8 ", " ++
        replaceTabSpace ((utf8 e.Name).drop 1) ∧
      (∀ rest : String, e.Name = "#" ++ rest →
        (∀ i : Nat, (utf8 rest)[i]? = some 9 → (utf8 rest)[i + 1]? ≠ some 32) →
        nodeTitle e = utf8 ("calls: " ++ toString e.Count ++ ", " ++ rest))) ∧
    sortByFrequences stdRuntime (scanLines ["#A", "#B", ""]).heap
      (scanLines ["#A", "#B", ""]).res = Except.ok rootedHeap ∧
    linearize stdRuntime rootedHeap (scanLines ["#A", "#B", ""]).res =
      Except.ok ([Link.node 1], rootedHeap) ∧
    Link.node 1 ∈ [Link.node 1] ∧ Reach rootedHeap 1 1 ∧
    (∀ q e, Reach rootedHeap 1 q → rootedHeap[q]? = some e →
      ∀ l ∈ e.Links, ∃ c : Nat, l = Link.node c) ∧
    Renderable rootedHeap 1 :=
  have hsort : sortByFrequences stdRuntime (scanLines ["#A", "#B", ""]).heap
      (scanLines ["#A", "#B", ""]).res = Except.ok rootedHeap := by decide
  have hlin : linearize stdRuntime rootedHeap (scanLines ["#A", "#B", ""]).res =
      Except.ok ([Link.node 1], rootedHeap) := by decide
  ⟨chainHeap_renderable, writeEntry_renders_node.1 chainHeap 0 chainHeap_renderable,
    hsort, hlin, List.mem_singleton.2 rfl, Relation.ReflTransGen.refl,
    fun q e _ he => rootedHeap_no_marker q e he,
    writeEntry_renders_node.2 stdRuntime ["#A", "#B", ""] rootedHeap [Link.node 1] rootedHeap
      1 1 hsort hlin (List.mem_singleton.2 rfl) Relation.ReflTransGen.refl
      (fun q e _ he => rootedHeap_no_marker q e he)⟩

end ParseProf
